import Mathlib

/-!
# channeling: channel-usage analysis of Go sources

A shallow embedding of `analyzeFile` / `getTypeString` / `appendIfNotExists`
(`main.go`) and of `generateWebGraph` (`web_visualizer.go`), followed by the
properties established about them.

Modelling conventions.

* The registry `map[string]*ChannelInfo` is an association list read with
  `Registry.get?` (first binding of a key) and written with `Registry.set`
  (replace that binding, or add one).  Every record is owned by one key:
  `analyzeFile` allocates a fresh `&ChannelInfo` on each insertion, so a
  mutation through the pointer is a `set` at the same key.
* The `sync` guards are left out: the embedding is of one worker running alone.
* A syntax node carries the line that `fset.Position(x.Pos()).Line` resolves
  to, for the node kinds whose position the callback reads.
* `ast.Inspect` with a callback that always returns `true` calls the callback
  on every node in depth-first pre-order (`Node.preorder`), children in the
  order of `ast.Walk`; the trailing `nil` calls match no case of the switch.
-/

namespace Channeling

/-! ## Data model (`main.go`, lines 16-27) -/

/-- The Go struct `ChannelInfo`; the field `Type` is spelled `Type_`. -/
structure ChannelInfo where
  Name : String
  Type_ : String
  Location : String
  Declaration : String
  SendOps : List String
  ReceiveOps : List String
  ReturnedFrom : List String
  PassedTo : List String
  UsedInFiles : List String
deriving DecidableEq

/-- The Go map `channels map[string]*ChannelInfo`. -/
abbrev Registry := List (String × ChannelInfo)

/-- Map read `channels[name]` with its `exists` flag. -/
def Registry.get? : Registry → String → Option ChannelInfo
  | [], _ => none
  | (k, c) :: rest, name => if k = name then some c else Registry.get? rest name

/-- Map write `channels[name] = c`. -/
def Registry.set : Registry → String → ChannelInfo → Registry
  | [], name, c => [(name, c)]
  | (k, c0) :: rest, name, c =>
    if k = name then (name, c) :: rest else (k, c0) :: Registry.set rest name c

/-- The guarded in-place mutation
`if channel, exists := channels[name]; exists { ... channel.X = ... }`. -/
def Registry.modify (channels : Registry) (name : String)
    (f : ChannelInfo → ChannelInfo) : Registry :=
  match channels.get? name with
  | some channel => channels.set name (f channel)
  | none => channels

/-! ## Syntax trees (`go/ast`) -/

/-- Unary operator tokens of `go/token`. -/
inductive Token where
  | ARROW
  | ADD
  | SUB
  | NOT
  | XOR
  | AND
  | TILDE
deriving DecidableEq

/-- The `go/ast` node kinds that `analyzeFile` and `getTypeString` test for, and
`other` for every remaining kind (files, blocks, literals, go statements, ...).
An `assignStmt` has its first right-hand expression apart (`rhs0`), as the Go
parser never builds an assignment without one; `selectStmt` holds `Body.List`;
the field lists of a `funcDecl` are `Recv`, `Type.TypeParams`,
`Type.Params` and `Type.Results`, each absent when the pointer is nil.  Comment
groups and tags, which contain no node the callback acts on, are left out. -/
inductive Node where
  | ident (name : String)
  | selectorExpr (x : Node) (sel : String)
  | chanType (value : Node)
  | callExpr (fn : Node) (args : List Node)
  | unaryExpr (line : Nat) (op : Token) (x : Node)
  | assignStmt (line : Nat) (lhs : List Node) (rhs0 : Node) (rhs : List Node)
  | sendStmt (line : Nat) (chan : Node) (value : Node)
  | commClause (comm : Option Node) (body : List Node)
  | selectStmt (clauses : List Node)
  | field (names : List String) (type : Node)
  | funcDecl (line : Nat) (recv : Option (List Node)) (name : String)
      (typeParams : Option (List Node)) (params : Option (List Node))
      (results : Option (List Node)) (body : Option Node)
  | other (children : List Node)

mutual
/-- The nodes of a tree in the order `ast.Inspect` hands them to its callback.
A block, field list or function type on the way is listed as an `other` node. -/
def Node.preorder : Node → List Node
  | .ident name => [.ident name]
  | .selectorExpr x sel => .selectorExpr x sel :: (x.preorder ++ [.ident sel])
  | .chanType value => .chanType value :: value.preorder
  | .callExpr fn args => .callExpr fn args :: (fn.preorder ++ preorderList args)
  | .unaryExpr line op x => .unaryExpr line op x :: x.preorder
  | .assignStmt line lhs rhs0 rhs =>
    .assignStmt line lhs rhs0 rhs :: (preorderList lhs ++ (rhs0.preorder ++ preorderList rhs))
  | .sendStmt line chan value => .sendStmt line chan value :: (chan.preorder ++ value.preorder)
  | .commClause comm body => .commClause comm body :: (preorderOpt comm ++ preorderList body)
  | .selectStmt clauses => .selectStmt clauses :: .other clauses :: preorderList clauses
  | .field names type => .field names type :: (names.map Node.ident ++ type.preorder)
  | .funcDecl line recv name typeParams params results body =>
    .funcDecl line recv name typeParams params results body ::
      (preorderFields recv ++ (.ident name ::
        (.other [] :: (preorderFields typeParams ++ (preorderFields params ++
          (preorderFields results ++ preorderOpt body))))))
  | .other children => .other children :: preorderList children
/-- Pre-order of an optional child (`if n.X != nil { Walk(v, n.X) }`). -/
def preorderOpt : Option Node → List Node
  | none => []
  | some n => n.preorder
/-- Pre-order of an optional `*ast.FieldList`. -/
def preorderFields : Option (List Node) → List Node
  | none => []
  | some fields => .other fields :: preorderList fields
/-- Pre-order of a list of children (`walkList`). -/
def preorderList : List Node → List Node
  | [] => []
  | n :: rest => n.preorder ++ preorderList rest
end

/-! ## `main.go` -/

/-- Function `getTypeString` (lines 216-225). -/
def getTypeString : Node → String
  | .ident name => name
  | .selectorExpr x sel => getTypeString x ++ "." ++ sel
  | _ => "unknown"

/-- Function `appendIfNotExists` (lines 227-234). -/
def appendIfNotExists : List String → String → List String
  | slice, str => if slice.any (fun s => s == str) then slice else slice ++ [str]

/-- The text `fmt.Sprintf("%s:%d", filePath, pos.Line)`. -/
def location (filePath : String) (line : Nat) : String :=
  filePath ++ ":" ++ toString line

/-- The text `fmt.Sprintf("%s:%d (select)", filePath, pos.Line)`. -/
def selectLocation (filePath : String) (line : Nat) : String :=
  filePath ++ ":" ++ toString line ++ " (select)"

/-- The record built on a declaration (lines 108-118). -/
def newChannelInfo (filePath : String) (line : Nat) (name : String) (value : Node) :
    ChannelInfo :=
  { Name := name
    Type_ := "chan " ++ getTypeString value
    Location := location filePath line
    Declaration := "Declared at " ++ location filePath line
    SendOps := []
    ReceiveOps := []
    ReturnedFrom := []
    PassedTo := []
    UsedInFiles := [filePath] }

/-- Lines 132-133 and 170-171: one more send site. -/
def addSendOp (filePath loc : String) (channel : ChannelInfo) : ChannelInfo :=
  { channel with
    SendOps := channel.SendOps ++ [loc]
    UsedInFiles := appendIfNotExists channel.UsedInFiles filePath }

/-- Lines 143-144 and 159-160: one more receive site. -/
def addReceiveOp (filePath loc : String) (channel : ChannelInfo) : ChannelInfo :=
  { channel with
    ReceiveOps := channel.ReceiveOps ++ [loc]
    UsedInFiles := appendIfNotExists channel.UsedInFiles filePath }

/-- Lines 187-188: one more function returning the channel. -/
def addReturnedFrom (filePath loc : String) (channel : ChannelInfo) : ChannelInfo :=
  { channel with
    ReturnedFrom := channel.ReturnedFrom ++ [loc]
    UsedInFiles := appendIfNotExists channel.UsedInFiles filePath }

/-- Lines 203-204: one more function taking the channel. -/
def addPassedTo (filePath loc : String) (channel : ChannelInfo) : ChannelInfo :=
  { channel with
    PassedTo := channel.PassedTo ++ [loc]
    UsedInFiles := appendIfNotExists channel.UsedInFiles filePath }

/-- The type assertion `x.(*ast.Ident)`: the name when it succeeds. -/
def asIdent : Node → Option String
  | .ident name => some name
  | _ => none

/-- Lines 100-103: `v` is a call of `make` whose first argument is a channel
type; the result is that type's element expression `chanType.Value`. -/
def makeChanValue : Node → Option Node
  | .callExpr (.ident fn) (.chanType value :: _) => if fn = "make" then some value else none
  | _ => none

/-- Body of the loop over `x.Rhs` (lines 100-125) at index `i`, value `v`. -/
def declareAt (filePath : String) (line : Nat) (lhs : List Node) (channels : Registry)
    (i : Nat) (v : Node) : Registry :=
  match makeChanValue v with
  | some value =>
    match lhs[i]? with
    | some x =>
      match asIdent x with
      | some name => channels.set name (newChannelInfo filePath line name value)
      | none => channels
    | none => channels
  | none => channels

/-- The loop `for i, v := range x.Rhs` (lines 99-126), entered at index `i`. -/
def declareLoop (filePath : String) (line : Nat) (lhs : List Node) :
    Nat → List Node → Registry → Registry
  | _, [], channels => channels
  | i, v :: rest, channels =>
    declareLoop filePath line lhs (i + 1) rest (declareAt filePath line lhs channels i v)

/-- The `*ast.SendStmt` case (lines 127-136). -/
def visitSend (filePath : String) (line : Nat) (chan : Node) (channels : Registry) : Registry :=
  match asIdent chan with
  | some name => channels.modify name (addSendOp filePath (location filePath line))
  | none => channels

/-- The `*ast.UnaryExpr` case (lines 137-148). -/
def visitUnary (filePath : String) (line : Nat) (op : Token) (x : Node)
    (channels : Registry) : Registry :=
  if op = Token.ARROW then
    match asIdent x with
    | some name => channels.modify name (addReceiveOp filePath (location filePath line))
    | none => channels
  else channels

/-- Line 154 and 155: `comm.Rhs[0]` is a receive `<-ch` of a plain identifier. -/
def receivedIdent : Node → Option String
  | .unaryExpr _ op x => if op = Token.ARROW then asIdent x else none
  | _ => none

/-- Lines 154-164: the receive of a select case `lhs := <-ch`. -/
def selectReceive (filePath : String) (line : Nat) (rhs0 : Node) (channels : Registry) :
    Registry :=
  match receivedIdent rhs0 with
  | some name => channels.modify name (addReceiveOp filePath (selectLocation filePath line))
  | none => channels

/-- Lines 166-174: the send of a select case `ch <- v`. -/
def selectSend (filePath : String) (line : Nat) (chan : Node) (channels : Registry) :
    Registry :=
  match asIdent chan with
  | some name => channels.modify name (addSendOp filePath (selectLocation filePath line))
  | none => channels

/-- Body of the loop over `x.Body.List` (lines 151-176). -/
def visitClause (filePath : String) (channels : Registry) (caseClause : Node) : Registry :=
  match caseClause with
  | .commClause (some (.assignStmt line _ rhs0 _)) _ => selectReceive filePath line rhs0 channels
  | .commClause (some (.sendStmt line chan _)) _ => selectSend filePath line chan channels
  | _ => channels

/-- The names of a field whose type is a channel type
(`if _, ok := field.Type.(*ast.ChanType); ok`), none for any other field. -/
def chanFieldNames : Node → List String
  | .field names (.chanType _) => names
  | _ => []

/-- Body of the loop over `x.Type.Results.List` (lines 181-193): only
`result.Names[0]` is looked up. -/
def visitResult (filePath : String) (line : Nat) (channels : Registry) (result : Node) :
    Registry :=
  match chanFieldNames result with
  | name :: _ => channels.modify name (addReturnedFrom filePath (location filePath line))
  | [] => channels

/-- Body of the loop over `param.Names` (lines 200-206), for one name. -/
def visitParamName (filePath : String) (line : Nat) (channels : Registry) (name : String) :
    Registry :=
  channels.modify name (addPassedTo filePath (location filePath line))

/-- Body of the loop over `x.Type.Params.List` (lines 198-208). -/
def visitParam (filePath : String) (line : Nat) (channels : Registry) (param : Node) :
    Registry :=
  (chanFieldNames param).foldl (visitParamName filePath line) channels

/-- The fields of an optional field list (`if x.Type.F != nil`, then `x.Type.F.List`). -/
def fieldsOf : Option (List Node) → List Node
  | none => []
  | some fields => fields

/-- The callback handed to `ast.Inspect` (lines 96-213), as a registry update. -/
def visit (filePath : String) (channels : Registry) (n : Node) : Registry :=
  match n with
  | .assignStmt line lhs rhs0 rhs => declareLoop filePath line lhs 0 (rhs0 :: rhs) channels
  | .sendStmt line chan _ => visitSend filePath line chan channels
  | .unaryExpr line op x => visitUnary filePath line op x channels
  | .selectStmt clauses => clauses.foldl (visitClause filePath) channels
  | .funcDecl line _ _ _ params results _ =>
    (fieldsOf params).foldl (visitParam filePath line)
      ((fieldsOf results).foldl (visitResult filePath line) channels)
  | _ => channels

/-- The call `ast.Inspect(node, f)` for a callback that always returns `true`. -/
def inspect (f : Registry → Node → Registry) (node : Node) (channels : Registry) : Registry :=
  node.preorder.foldl f channels

/-- Function `analyzeFile` (lines 89-214).  `parsed` is what `parser.ParseFile` returned
for `filePath`: `none` for a parse error, after which the function returns. -/
def analyzeFile (filePath : String) (parsed : Option Node) (channels : Registry) : Registry :=
  match parsed with
  | none => channels
  | some node => inspect (visit filePath) node channels

/-! ## `web_visualizer.go` -/

/-- The Go struct `WebNode`. -/
structure WebNode where
  ID : String
  Label : String
  Type_ : String
  Group : String
  Status : String
  Tooltip : String
deriving DecidableEq

/-- The Go struct `WebEdge`. -/
structure WebEdge where
  From : String
  To : String
  Label : String
deriving DecidableEq

/-- The Go struct `WebGraph`. -/
structure WebGraph where
  Nodes : List WebNode
  Edges : List WebEdge
deriving DecidableEq

/-- The counting loops of lines 49-59: entries that are not the empty string. -/
def countOps (ops : List String) : Nat :=
  ops.foldl (fun count op => if op ≠ "" then count + 1 else count) 0

/-- Lines 43-70: the status and tooltip of one channel. -/
def statusAndTooltip (channel : ChannelInfo) : String × String :=
  let status := "normal"
  let tooltip := "Type: " ++ channel.Type_ ++ "\nDeclaration: " ++ channel.Declaration
  let sendCount := countOps channel.SendOps
  let receiveCount := countOps channel.ReceiveOps
  if sendCount = 0 ∧ receiveCount = 0 then
    ("dangling", tooltip ++ "\n⚠️ Dangling channel: No send or receive operations")
  else if sendCount = 0 then
    ("receive-only", tooltip ++ "\n⚠️ Receive-only channel: No send operations")
  else if receiveCount = 0 then
    ("send-only", tooltip ++ "\n⚠️ Send-only channel: No receive operations")
  else (status, tooltip)

/-- The node appended at lines 72-79. -/
def channelNode (name : String) (channel : ChannelInfo) : WebNode :=
  { ID := name
    Label := name
    Type_ := channel.Type_
    Group := "channel"
    Status := (statusAndTooltip channel).1
    Tooltip := (statusAndTooltip channel).2 }

/-- Body of the loop over the map (lines 42-96). -/
def addChannel (graph : WebGraph) (entry : String × ChannelInfo) : WebGraph :=
  { Nodes := graph.Nodes ++ [channelNode entry.1 entry.2]
    Edges := graph.Edges
      ++ entry.2.SendOps.map (fun _ => { From := "main", To := entry.1, Label := "send" })
      ++ entry.2.ReceiveOps.map (fun _ => { From := entry.1, To := "main", Label := "receive" }) }

/-- The node of the program itself (lines 33-40). -/
def mainNode : WebNode :=
  { ID := "main"
    Label := "Main"
    Type_ := "program"
    Group := "main"
    Status := "normal"
    Tooltip := "Main program" }

/-- Function `generateWebGraph` (lines 30-99).  The argument lists the entries of the map
in the order the `range` loop meets them. -/
def generateWebGraph (channels : List (String × ChannelInfo)) : WebGraph :=
  channels.foldl addChannel { Nodes := [mainNode], Edges := [] }

/-! ## Classification as the specification words it -/

/-- The status read off the number of entries of the two lists: `dangling` if
both counts are zero, `receive-only` if only the send count is, `send-only` if
only the receive count is, else `normal`. -/
def statusByLength (channel : ChannelInfo) : String :=
  if channel.SendOps.length = 0 ∧ channel.ReceiveOps.length = 0 then "dangling"
  else if channel.SendOps.length = 0 then "receive-only"
  else if channel.ReceiveOps.length = 0 then "send-only"
  else "normal"

/-- The number of entries of a list that are not the empty string. -/
def nonEmptyEntries (ops : List String) : Nat :=
  (ops.filter (fun op => op ≠ "")).length

/-! ## The registry operations of a callback invocation -/

/-- One write to the registry: the insertion of a fresh record, or one of the
four guarded appends. -/
inductive Op where
  | declare (name : String) (c : ChannelInfo)
  | send (name loc : String)
  | receive (name loc : String)
  | returned (name loc : String)
  | passed (name loc : String)
deriving DecidableEq

/-- Carry out one write made while analysing `filePath`. -/
def Op.apply (filePath : String) (channels : Registry) : Op → Registry
  | .declare name c => channels.set name c
  | .send name loc => channels.modify name (addSendOp filePath loc)
  | .receive name loc => channels.modify name (addReceiveOp filePath loc)
  | .returned name loc => channels.modify name (addReturnedFrom filePath loc)
  | .passed name loc => channels.modify name (addPassedTo filePath loc)

/-- Carry out a sequence of writes. -/
def run (filePath : String) (channels : Registry) (ops : List Op) : Registry :=
  ops.foldl (Op.apply filePath) channels

/-- What one write does to the binding of the key `n`. -/
def Op.onKey (filePath n : String) (o : Option ChannelInfo) : Op → Option ChannelInfo
  | .declare name c => if name = n then some c else o
  | .send name loc => if name = n then o.map (addSendOp filePath loc) else o
  | .receive name loc => if name = n then o.map (addReceiveOp filePath loc) else o
  | .returned name loc => if name = n then o.map (addReturnedFrom filePath loc) else o
  | .passed name loc => if name = n then o.map (addPassedTo filePath loc) else o

/-- The write attempted for the pair `(x.Lhs[i], v)` of an assignment. -/
def declareOpAt (filePath : String) (line : Nat) (lhs : List Node) (i : Nat) (v : Node) :
    List Op :=
  match makeChanValue v with
  | some value =>
    match lhs[i]? with
    | some x =>
      match asIdent x with
      | some name => [.declare name (newChannelInfo filePath line name value)]
      | none => []
    | none => []
  | none => []

/-- The writes attempted by the loop over `x.Rhs`, entered at index `i`. -/
def declareOps (filePath : String) (line : Nat) (lhs : List Node) : Nat → List Node → List Op
  | _, [] => []
  | i, v :: rest => declareOpAt filePath line lhs i v ++ declareOps filePath line lhs (i + 1) rest

/-- The write attempted for one case clause of a select statement. -/
def clauseOps (filePath : String) : Node → List Op
  | .commClause (some (.assignStmt line _ rhs0 _)) _ =>
    match receivedIdent rhs0 with
    | some name => [.receive name (selectLocation filePath line)]
    | none => []
  | .commClause (some (.sendStmt line chan _)) _ =>
    match asIdent chan with
    | some name => [.send name (selectLocation filePath line)]
    | none => []
  | _ => []

/-- The write attempted for one result field of a function declaration. -/
def resultOps (filePath : String) (line : Nat) (result : Node) : List Op :=
  match chanFieldNames result with
  | name :: _ => [.returned name (location filePath line)]
  | [] => []

/-- The writes attempted for one parameter field of a function declaration. -/
def paramOps (filePath : String) (line : Nat) (param : Node) : List Op :=
  (chanFieldNames param).map (fun name => .passed name (location filePath line))

/-- The writes attempted by one invocation of the callback, in order. -/
def script (filePath : String) : Node → List Op
  | .assignStmt line lhs rhs0 rhs => declareOps filePath line lhs 0 (rhs0 :: rhs)
  | .sendStmt line chan _ =>
    match asIdent chan with
    | some name => [.send name (location filePath line)]
    | none => []
  | .unaryExpr line op x =>
    if op = Token.ARROW then
      match asIdent x with
      | some name => [.receive name (location filePath line)]
      | none => []
    else []
  | .selectStmt clauses => clauses.flatMap (clauseOps filePath)
  | .funcDecl line _ _ _ params results _ =>
    (fieldsOf results).flatMap (resultOps filePath line)
      ++ (fieldsOf params).flatMap (paramOps filePath line)
  | _ => []

/-- The writes attempted while a whole tree is inspected. -/
def fileScript (filePath : String) (tree : Node) : List Op :=
  tree.preorder.flatMap (script filePath)

/-- The name written by an `Op`. -/
def Op.name : Op → String
  | .declare name _ => name
  | .send name _ => name
  | .receive name _ => name
  | .returned name _ => name
  | .passed name _ => name

/-- Whether an `Op` is the insertion of a fresh record. -/
def Op.isDeclare : Op → Bool
  | .declare _ _ => true
  | _ => false

/-! ## Syntactic notions used to state the properties -/

/-- The name that the pair `(lhs[i], v)` of an assignment declares, if `v` is
`make(chan T, ...)` and `lhs[i]` is a plain identifier. -/
def declaredNameAt (lhs : List Node) (i : Nat) (v : Node) : Option String :=
  match makeChanValue v, lhs[i]? with
  | some _, some x => asIdent x
  | _, _ => none

/-- The names declared by the right-hand expressions `rest`, the first of which
stands at index `i`. -/
def declaredNamesFrom (lhs : List Node) : Nat → List Node → List String
  | _, [] => []
  | i, v :: rest => (declaredNameAt lhs i v).toList ++ declaredNamesFrom lhs (i + 1) rest

/-- The channel names an assignment statement declares; none for other nodes. -/
def Node.declares : Node → List String
  | .assignStmt _ lhs rhs0 rhs => declaredNamesFrom lhs 0 (rhs0 :: rhs)
  | _ => []

/-- The channel names declared anywhere in a tree. -/
def treeDeclares (tree : Node) : List String :=
  tree.preorder.flatMap Node.declares

/-- The identifier a select case communicates on, when its communication is a
receive-assignment or a send on a plain identifier. -/
def clauseNames : Node → List String
  | .commClause (some (.assignStmt _ _ rhs0 _)) _ => (receivedIdent rhs0).toList
  | .commClause (some (.sendStmt _ chan _)) _ => (asIdent chan).toList
  | _ => []

/-- The usage nodes: send statement, unary expression, select statement,
function declaration. -/
def isUsageNode : Node → Bool
  | .sendStmt _ _ _ => true
  | .unaryExpr _ _ _ => true
  | .selectStmt _ => true
  | .funcDecl _ _ _ _ _ _ _ => true
  | _ => false

/-- The identifiers the callback looks up in the registry at a usage node: the
channel of a direct send or receive, the channels of the send and receive cases
of a select, the first name of each channel-typed result field (`Names[0]`,
line 183) and every name of each channel-typed parameter field of a function
declaration. -/
def usageNames : Node → List String
  | .sendStmt _ chan _ => (asIdent chan).toList
  | .unaryExpr _ op x => if op = Token.ARROW then (asIdent x).toList else []
  | .selectStmt clauses => clauses.flatMap clauseNames
  | .funcDecl _ _ _ _ params results _ =>
    (fieldsOf results).flatMap (fun result => (chanFieldNames result).take 1)
      ++ (fieldsOf params).flatMap chanFieldNames
  | _ => []

/-- Whether a node is a send statement whose channel operand is the plain
identifier `name`. -/
def isSendOn (name : String) : Node → Bool
  | .sendStmt _ chan _ => asIdent chan == some name
  | _ => false

/-- Whether a node is a receive expression whose operand is the plain
identifier `name`. -/
def isReceiveOn (name : String) : Node → Bool
  | .unaryExpr _ op x => op == Token.ARROW && asIdent x == some name
  | _ => false

/-- The number of send statements on `name` in a tree. -/
def countSends (name : String) (tree : Node) : Nat :=
  tree.preorder.countP (isSendOn name)

/-- The number of receive expressions on `name` in a tree. -/
def countReceives (name : String) (tree : Node) : Nat :=
  tree.preorder.countP (isReceiveOn name)

/-! ## Sample inputs -/

/-- The call `make(chan T)` for a named element type `T`. -/
def makeChan (elem : String) : Node :=
  .callExpr (.ident "make") [.chanType (.ident elem)]

/-- A source file `package main; func main() { body }`, `func` on line 3. -/
def mainFile (body : List Node) : Node :=
  .other [.ident "main", .funcDecl 3 none "main" none (some []) none (some (.other body))]

/-- The file
```
package main

func main() {
	ch := make(chan int)
	select {
	case ch <- 1:
	}
}
``` -/
def selectSendFile : Node :=
  mainFile
    [ .assignStmt 4 [.ident "ch"] (makeChan "int") [],
      .selectStmt [.commClause (some (.sendStmt 6 (.ident "ch") (.other []))) []] ]

/-- The statement
```
select {
case v := <-ch:
}
```
with `select` on line 5. -/
def selectReceiveStmt : Node :=
  .selectStmt
    [.commClause (some (.assignStmt 6 [.ident "v"] (.unaryExpr 6 .ARROW (.ident "ch")) [])) []]

/-- The record of a channel `name` of element type `int` declared at `main.go:4`. -/
def declaredRecord (name : String) : ChannelInfo :=
  newChannelInfo "main.go" 4 name (.ident "int")

/-- The statement `a, b := make(chan int), make(chan string)` on line 9. -/
def pairDeclaration : Node :=
  .assignStmt 9 [.ident "a", .ident "b"] (makeChan "int") [makeChan "string"]

/-- A registry in which `b` has one recorded send. -/
def usedRegistry : Registry :=
  [("b", addSendOp "main.go" "main.go:7" (declaredRecord "b"))]

/-- The location a write appends to the `SendOps` of `n`, if it does. -/
def Op.sendLoc (n : String) : Op → Option String
  | .send name loc => if name = n then some loc else none
  | _ => none

/-- The location a write appends to the `ReceiveOps` of `n`, if it does. -/
def Op.receiveLoc (n : String) : Op → Option String
  | .receive name loc => if name = n then some loc else none
  | _ => none

/-- The location a write appends to the `ReturnedFrom` of `n`, if it does. -/
def Op.returnedLoc (n : String) : Op → Option String
  | .returned name loc => if name = n then some loc else none
  | _ => none

/-- The location a write appends to the `PassedTo` of `n`, if it does. -/
def Op.passedLoc (n : String) : Op → Option String
  | .passed name loc => if name = n then some loc else none
  | _ => none

/-- The shape of the writes `analyzeFile` makes for `filePath`: an inserted
record is the one of lines 108-118, an appended location is `filePath:line`,
with or without the select tag. -/
def Op.WellFormed (filePath : String) : Op → Prop
  | .declare name c => ∃ line value, c = newChannelInfo filePath line name value
  | .send _ loc => ∃ line, loc = location filePath line ∨ loc = selectLocation filePath line
  | .receive _ loc => ∃ line, loc = location filePath line ∨ loc = selectLocation filePath line
  | .returned _ loc => ∃ line, loc = location filePath line
  | .passed _ loc => ∃ line, loc = location filePath line

/-- The keys of the registry. -/
def Registry.keys (channels : Registry) : List String :=
  channels.map Prod.fst

/-- The registries that runs of `analyzeFile`, one after the other, build from
the empty registry. -/
inductive Reachable : Registry → Prop where
  | empty : Reachable []
  | step (filePath : String) (parsed : Option Node) (channels : Registry) :
      Reachable channels → Reachable (analyzeFile filePath parsed channels)

/-- A registry in which `ch` has one recorded send. -/
def sentRegistry : Registry :=
  [("ch", addSendOp "main.go" "main.go:7" (declaredRecord "ch"))]

/-- The file `package main; func main() { ch := make(chan int) }`. -/
def redeclareFile : Node :=
  mainFile [.assignStmt 4 [.ident "ch"] (makeChan "int") []]

/-- The declaration `func pair() (a, b chan int)` on line 12, without a body. -/
def groupedResultDecl : Node :=
  .funcDecl 12 none "pair" none (some []) (some [.field ["a", "b"] (.chanType (.ident "int"))]) none

/-- A registry in which `a` and `b` are declared and unused. -/
def pairRegistry : Registry :=
  [("a", declaredRecord "a"), ("b", declaredRecord "b")]

/-- The declaration `func worker(id int, ch chan int, done chan bool)` on line 20. -/
def workerDecl : Node :=
  .funcDecl 20 none "worker" none
    (some [.field ["id"] (.ident "int"), .field ["ch"] (.chanType (.ident "int")),
      .field ["done"] (.chanType (.ident "bool"))])
    none (some (.other []))

/-- The identifiers the send and receive-assignment cases of a select statement
communicate on; none for other nodes. -/
def selectNames : Node → List String
  | .selectStmt clauses => clauses.flatMap clauseNames
  | _ => []

/-- The file
```
package main

func main() {
	ch := make(chan int)
	go func() {
		ch <- 1
		ch <- 2
	}()
	<-ch
}
``` -/
def scenarioFile : Node :=
  mainFile
    [ .assignStmt 4 [.ident "ch"] (makeChan "int") [],
      .other [.callExpr (.other [.other [], .other
        [ .sendStmt 6 (.ident "ch") (.other []),
          .sendStmt 7 (.ident "ch") (.other []) ]]) []],
      .other [.unaryExpr 9 .ARROW (.ident "ch")] ]

/-! ## Several files (`analyzeDirectory`, lines 49-87) -/

/-- The writes attempted by the analysis of one file, given its path and what
`parser.ParseFile` returned for it: none after a parse error. -/
def fileWrites (file : String × Option Node) : List Op :=
  match file.2 with
  | none => []
  | some tree => fileScript file.1 tree

/-- One worker draining the queue alone (`for filePath := range fileChan`,
lines 62-64): the files are analysed one after the other, in queue order. -/
def analyzeFiles (files : List (String × Option Node)) (channels : Registry) : Registry :=
  files.foldl (fun chs file => analyzeFile file.1 file.2 chs) channels

/-- Whether the analysis of a file attempts a write (declaration or usage) for
the name `n`. -/
def WritesTo (n : String) (file : String × Option Node) : Prop :=
  ∃ op ∈ fileWrites file, op.name = n

/-- The file `a.go`: `package main; func main() { ch <- 1 }`, the send on line 4. -/
def senderFile : String × Option Node :=
  ("a.go", some (mainFile [.sendStmt 4 (.ident "ch") (.other [])]))

/-- The file `b.go`: `package main; func main() { ch := make(chan int) }`. -/
def declarerFile : String × Option Node :=
  ("b.go", some (mainFile [.assignStmt 4 [.ident "ch"] (makeChan "int") []]))

/-- The file `c.go`: `package main; func main() { done := make(chan bool); done <- true }`. -/
def doneFile : String × Option Node :=
  ("c.go", some (mainFile
    [ .assignStmt 4 [.ident "done"] (makeChan "bool") [],
      .sendStmt 5 (.ident "done") (.ident "true") ]))

/-- The declaration `func f(ch, ghost chan int)` on line 30, without a body. -/
def mixedParamDecl : Node :=
  .funcDecl 30 none "f" none (some [.field ["ch", "ghost"] (.chanType (.ident "int"))]) none none

/-- The file
```
package main

func main() {
	ch := make(chan int)
	ch <- 1
	ch <- 2
	<-ch
	ch = make(chan int)
}
``` -/
def redeclaredScenarioFile : Node :=
  mainFile
    [ .assignStmt 4 [.ident "ch"] (makeChan "int") [],
      .sendStmt 5 (.ident "ch") (.other []),
      .sendStmt 6 (.ident "ch") (.other []),
      .other [.unaryExpr 7 .ARROW (.ident "ch")],
      .assignStmt 8 [.ident "ch"] (makeChan "int") [] ]

/-! ## Declaration sites -/

/-- The line of an assignment statement that declares the channel name `n`. -/
def declarationLine (n : String) : Node → Option Nat
  | .assignStmt line lhs rhs0 rhs =>
    if n ∈ declaredNamesFrom lhs 0 (rhs0 :: rhs) then some line else none
  | _ => none

/-- The lines of the declarations of `n` in a list of nodes, in order. -/
def declarationLinesOf (n : String) (nodes : List Node) : List Nat :=
  nodes.filterMap (declarationLine n)

/-- The lines of the declarations of `n` in a tree, in traversal order. -/
def declarationLines (n : String) (tree : Node) : List Nat :=
  declarationLinesOf n tree.preorder

/-- The file `package main; func main() { ch := make(chan string) }`, the
declaration on line 7. -/
def laterDeclareFile : Node :=
  mainFile [.assignStmt 7 [.ident "ch"] (makeChan "string") []]

/-! ## Edges of the web graph -/

/-- The number of `send` edges of a graph that point to the channel `n`. -/
def sendEdgesTo (n : String) (graph : WebGraph) : Nat :=
  graph.Edges.countP (fun e => e.To == n && e.Label == "send")

/-- The number of `receive` edges of a graph that leave the channel `n`. -/
def receiveEdgesFrom (n : String) (graph : WebGraph) : Nat :=
  graph.Edges.countP (fun e => e.From == n && e.Label == "receive")

/-! ## Registry lemmas -/

theorem Registry.get?_set (channels : Registry) (k n : String) (c : ChannelInfo) :
    (channels.set k c).get? n = if k = n then some c else channels.get? n := by
  induction channels with
  | nil => simp [Registry.set, Registry.get?]
  | cons e rest ih =>
    obtain ⟨k0, c0⟩ := e
    by_cases h0 : k0 = k
    · subst h0
      by_cases h1 : k0 = n <;> simp [Registry.set, Registry.get?, h1]
    · by_cases h1 : k0 = n
      · subst h1
        have h2 : ¬ k = k0 := fun h => h0 h.symm
        simp [Registry.set, Registry.get?, h0, h2]
      · simp [Registry.set, Registry.get?, h0, h1, ih]

theorem Registry.get?_modify (channels : Registry) (k n : String)
    (f : ChannelInfo → ChannelInfo) :
    (channels.modify k f).get? n
      = if k = n then (channels.get? n).map f else channels.get? n := by
  unfold Registry.modify
  cases hk : channels.get? k with
  | none =>
    by_cases h : k = n
    · subst h; simp [hk]
    · simp [h]
  | some c =>
    by_cases h : k = n
    · subst h; simp [Registry.get?_set, hk]
    · simp [Registry.get?_set, h]

theorem Registry.modify_absent (channels : Registry) (k : String)
    (f : ChannelInfo → ChannelInfo) (h : channels.get? k = none) :
    channels.modify k f = channels := by
  simp [Registry.modify, h]

/-! ## The callback as a sequence of writes -/

theorem run_nil (filePath : String) (channels : Registry) : run filePath channels [] = channels :=
  rfl

theorem run_append (filePath : String) (channels : Registry) (xs ys : List Op) :
    run filePath channels (xs ++ ys) = run filePath (run filePath channels xs) ys := by
  simp [run, List.foldl_append]

theorem foldl_eq_run (filePath : String) (step : Registry → Node → Registry)
    (ops : Node → List Op)
    (h : ∀ channels x, step channels x = run filePath channels (ops x))
    (xs : List Node) (channels : Registry) :
    xs.foldl step channels = run filePath channels (xs.flatMap ops) := by
  induction xs generalizing channels with
  | nil => rfl
  | cons x rest ih => simp [List.flatMap_cons, run_append, ih, h]

theorem declareAt_eq_run (filePath : String) (line : Nat) (lhs : List Node)
    (channels : Registry) (i : Nat) (v : Node) :
    declareAt filePath line lhs channels i v
      = run filePath channels (declareOpAt filePath line lhs i v) := by
  unfold declareAt declareOpAt
  cases makeChanValue v with
  | none => rfl
  | some value =>
    cases lhs[i]? with
    | none => rfl
    | some x =>
      cases h : asIdent x <;> simp [h, run, Op.apply]

theorem declareLoop_eq_run (filePath : String) (line : Nat) (lhs : List Node) (rest : List Node) :
    ∀ (i : Nat) (channels : Registry),
      declareLoop filePath line lhs i rest channels
        = run filePath channels (declareOps filePath line lhs i rest) := by
  induction rest with
  | nil => intro i channels; rfl
  | cons v rest ih =>
    intro i channels
    simp [declareLoop, declareOps, run_append, ih, declareAt_eq_run]

theorem visitClause_eq_run (filePath : String) (channels : Registry) (caseClause : Node) :
    visitClause filePath channels caseClause
      = run filePath channels (clauseOps filePath caseClause) := by
  unfold visitClause clauseOps
  split
  · simp only [selectReceive]
    cases receivedIdent _ <;> rfl
  · simp only [selectSend]
    cases asIdent _ <;> rfl
  · rfl

theorem visitResult_eq_run (filePath : String) (line : Nat) (channels : Registry)
    (result : Node) :
    visitResult filePath line channels result
      = run filePath channels (resultOps filePath line result) := by
  unfold visitResult resultOps
  cases chanFieldNames result <;> rfl

theorem visitParam_eq_run (filePath : String) (line : Nat) (channels : Registry)
    (param : Node) :
    visitParam filePath line channels param
      = run filePath channels (paramOps filePath line param) := by
  unfold visitParam paramOps
  generalize chanFieldNames param = names
  induction names generalizing channels with
  | nil => rfl
  | cons name rest ih =>
    simp only [List.foldl_cons, List.map_cons, run] at ih ⊢
    exact ih _

theorem visit_eq_run (filePath : String) (channels : Registry) (n : Node) :
    visit filePath channels n = run filePath channels (script filePath n) := by
  cases n with
  | assignStmt line lhs rhs0 rhs => exact declareLoop_eq_run filePath line lhs _ 0 channels
  | sendStmt line chan value =>
    simp only [visit, script, visitSend]
    cases asIdent chan <;> rfl
  | unaryExpr line op x =>
    simp only [visit, script, visitUnary]
    by_cases h : op = Token.ARROW
    · simp only [h, if_true]
      cases asIdent x <;> rfl
    · simp only [h, if_false]; rfl
  | selectStmt clauses =>
    exact foldl_eq_run filePath _ _ (visitClause_eq_run filePath) clauses channels
  | funcDecl line recv name typeParams params results body =>
    simp only [visit, script, run_append]
    rw [foldl_eq_run filePath _ _ (fun c x => visitResult_eq_run filePath line c x),
      foldl_eq_run filePath _ _ (fun c x => visitParam_eq_run filePath line c x)]
  | _ => rfl

theorem inspect_eq_run (filePath : String) (tree : Node) (channels : Registry) :
    inspect (visit filePath) tree channels = run filePath channels (fileScript filePath tree) :=
  foldl_eq_run filePath _ _ (visit_eq_run filePath) tree.preorder channels

theorem analyzeFile_some (filePath : String) (tree : Node) (channels : Registry) :
    analyzeFile filePath (some tree) channels
      = run filePath channels (fileScript filePath tree) :=
  inspect_eq_run filePath tree channels

theorem get?_apply (filePath n : String) (channels : Registry) (op : Op) :
    (op.apply filePath channels).get? n = op.onKey filePath n (channels.get? n) := by
  cases op <;> simp [Op.apply, Op.onKey, Registry.get?_set, Registry.get?_modify]

theorem get?_run (filePath n : String) (ops : List Op) (channels : Registry) :
    (run filePath channels ops).get? n
      = ops.foldl (Op.onKey filePath n) (channels.get? n) := by
  induction ops generalizing channels with
  | nil => rfl
  | cons op rest ih => simp [run, List.foldl_cons, get?_apply] at ih ⊢; rw [ih, get?_apply]

/-! ## `generateWebGraph` -/

theorem countOps_eq_nonEmptyEntries (ops : List String) :
    countOps ops = nonEmptyEntries ops := by
  have key : ∀ (l : List String) (k : Nat),
      l.foldl (fun count op => if op ≠ "" then count + 1 else count) k
        = k + (l.filter (fun op => op ≠ "")).length := by
    intro l
    induction l with
    | nil => intro k; simp
    | cons a t ih =>
      intro k
      rw [List.foldl_cons, ih]
      by_cases h : a = ""
      · simp [h]
      · simp [h]; omega
  simpa [countOps, nonEmptyEntries] using key ops 0

theorem foldl_addChannel_nodes (channels : List (String × ChannelInfo)) (graph : WebGraph) :
    (channels.foldl addChannel graph).Nodes
      = graph.Nodes ++ channels.map (fun entry => channelNode entry.1 entry.2) := by
  induction channels generalizing graph with
  | nil => simp
  | cons e rest ih => simp [ih, addChannel]

theorem generateWebGraph_nodes (channels : List (String × ChannelInfo)) :
    (generateWebGraph channels).Nodes
      = mainNode :: channels.map (fun entry => channelNode entry.1 entry.2) := by
  simp [generateWebGraph, foldl_addChannel_nodes]

theorem channelNode_status (name : String) (channel : ChannelInfo) :
    (channelNode name channel).Status =
      if nonEmptyEntries channel.SendOps = 0 ∧ nonEmptyEntries channel.ReceiveOps = 0 then
        "dangling"
      else if nonEmptyEntries channel.SendOps = 0 then "receive-only"
      else if nonEmptyEntries channel.ReceiveOps = 0 then "send-only"
      else "normal" := by
  simp only [channelNode, statusAndTooltip, countOps_eq_nonEmptyEntries]
  split_ifs <;> rfl

/-! ## Sends and receives inside a select statement -/

/-- C2 (code evaluated at the failing input): in `selectSendFile` the only send
statement on `ch` is the one of the select case, and `ch` is registered when it
is visited, yet the analysis of the file records two send sites for `ch`: the
select case once by the `SelectStmt` case and once more, as a direct send, when
the traversal reaches the `SendStmt` below it. -/
theorem select_send_recorded_twice :
    ((analyzeFile "main.go" (some selectSendFile) []).get? "ch").map (fun c => c.SendOps)
        = some ["main.go:6 (select)", "main.go:6"]
      ∧ countSends "ch" selectSendFile = 1 := by
  decide

/-- C3 (code evaluated at the failing input): walking the select statement
`select { case v := <-ch: }` with `ch` registered appends two entries to the
`ReceiveOps` of `ch`, the tagged one and an untagged one for the same receive. -/
theorem select_receive_recorded_twice :
    ((analyzeFile "main.go" (some selectReceiveStmt) [("ch", declaredRecord "ch")]).get? "ch").map
        (fun c => c.ReceiveOps)
      = some ["main.go:6 (select)", "main.go:6"] := by
  decide

/-! ## Usages of unregistered names -/

theorem run_absent (filePath : String) (ops : List Op) (channels : Registry)
    (h : ∀ op ∈ ops, op.isDeclare = false ∧ channels.get? op.name = none) :
    run filePath channels ops = channels := by
  induction ops with
  | nil => rfl
  | cons op rest ih =>
    have hop := h op (List.mem_cons_self _ _)
    have hstep : op.apply filePath channels = channels := by
      cases op <;> simp_all [Op.apply, Op.isDeclare, Op.name, Registry.modify_absent]
    have hrest := ih (fun o ho => h o (List.mem_cons_of_mem _ ho))
    simpa [run, List.foldl_cons, hstep] using hrest

theorem clauseOps_names (filePath : String) (clause : Node) :
    ∀ op ∈ clauseOps filePath clause, op.isDeclare = false ∧ op.name ∈ clauseNames clause := by
  intro op hop
  unfold clauseOps at hop
  unfold clauseNames
  split at hop
  · cases h : receivedIdent _ <;> simp_all [Op.isDeclare, Op.name]
  · cases h : asIdent _ <;> simp_all [Op.isDeclare, Op.name]
  · simp at hop

theorem resultOps_names (filePath : String) (line : Nat) (result : Node) :
    ∀ op ∈ resultOps filePath line result,
      op.isDeclare = false ∧ op.name ∈ (chanFieldNames result).take 1 := by
  intro op hop
  unfold resultOps at hop
  cases h : chanFieldNames result <;> simp_all [Op.isDeclare, Op.name]

theorem paramOps_names (filePath : String) (line : Nat) (param : Node) :
    ∀ op ∈ paramOps filePath line param,
      op.isDeclare = false ∧ op.name ∈ chanFieldNames param := by
  intro op hop
  unfold paramOps at hop
  obtain ⟨name, hname, rfl⟩ := List.mem_map.mp hop
  exact ⟨rfl, hname⟩

theorem script_usage (filePath : String) (node : Node) (hu : isUsageNode node = true) :
    ∀ op ∈ script filePath node, op.isDeclare = false ∧ op.name ∈ usageNames node := by
  intro op hop
  cases node with
  | sendStmt line chan value =>
    simp only [script] at hop
    cases h : asIdent chan <;> simp_all [usageNames, Op.isDeclare, Op.name]
  | unaryExpr line tok x =>
    simp only [script] at hop
    by_cases ht : tok = Token.ARROW
    · cases h : asIdent x <;> simp_all [usageNames, Op.isDeclare, Op.name]
    · simp [ht] at hop
  | selectStmt clauses =>
    simp only [script, List.mem_flatMap] at hop
    obtain ⟨clause, hclause, hmem⟩ := hop
    have := clauseOps_names filePath clause op hmem
    exact ⟨this.1, List.mem_flatMap.mpr ⟨clause, hclause, this.2⟩⟩
  | funcDecl line recv name typeParams params results body =>
    simp only [script, List.mem_append, List.mem_flatMap] at hop
    rcases hop with ⟨result, hr, hmem⟩ | ⟨param, hp, hmem⟩
    · have := resultOps_names filePath line result op hmem
      exact ⟨this.1, by
        simp only [usageNames, List.mem_append, List.mem_flatMap]
        exact Or.inl ⟨result, hr, this.2⟩⟩
    · have := paramOps_names filePath line param op hmem
      exact ⟨this.1, by
        simp only [usageNames, List.mem_append, List.mem_flatMap]
        exact Or.inr ⟨param, hp, this.2⟩⟩
  | _ => simp [isUsageNode] at hu

theorem foldl_onKey_none (filePath n : String) (ops : List Op)
    (h : ∀ op ∈ ops, op.isDeclare = false) :
    ops.foldl (Op.onKey filePath n) none = none := by
  induction ops with
  | nil => rfl
  | cons op rest ih =>
    have hop := h op (List.mem_cons_self _ _)
    have hstep : op.onKey filePath n none = none := by
      cases op <;> simp_all [Op.onKey, Op.isDeclare]
    simpa [List.foldl_cons, hstep] using ih (fun o ho => h o (List.mem_cons_of_mem _ ho))

theorem isSome_get?_apply (filePath m : String) (op : Op) (h : op.isDeclare = false)
    (channels : Registry) :
    ((op.apply filePath channels).get? m).isSome = (channels.get? m).isSome := by
  rw [get?_apply]
  cases op with
  | declare name c => simp [Op.isDeclare] at h
  | send name loc => by_cases hn : name = m <;> cases hc : channels.get? m <;> simp [Op.onKey, hn]
  | receive name loc =>
    by_cases hn : name = m <;> cases hc : channels.get? m <;> simp [Op.onKey, hn]
  | returned name loc =>
    by_cases hn : name = m <;> cases hc : channels.get? m <;> simp [Op.onKey, hn]
  | passed name loc =>
    by_cases hn : name = m <;> cases hc : channels.get? m <;> simp [Op.onKey, hn]

theorem apply_absent (filePath : String) (op : Op) (h : op.isDeclare = false)
    (channels : Registry) (hname : channels.get? op.name = none) :
    op.apply filePath channels = channels := by
  cases op <;> simp_all [Op.apply, Op.isDeclare, Op.name, Registry.modify_absent]

/-- The usage writes for unregistered names can be left out of a sequence of
usage writes without changing what it does. -/
theorem run_filter_registered (filePath : String) (ops : List Op)
    (h : ∀ op ∈ ops, op.isDeclare = false) :
    ∀ channels : Registry, run filePath channels ops
      = run filePath channels (ops.filter (fun op => (channels.get? op.name).isSome)) := by
  induction ops with
  | nil => intro channels; rfl
  | cons op rest ih =>
    intro channels
    have hop := h op (List.mem_cons_self _ _)
    have hrest := ih (fun x hx => h x (List.mem_cons_of_mem _ hx))
    have hsame : rest.filter (fun x => ((op.apply filePath channels).get? x.name).isSome)
        = rest.filter (fun x => (channels.get? x.name).isSome) := by
      congr 1
      funext x
      exact isSome_get?_apply filePath x.name op hop channels
    cases hreg : channels.get? op.name with
    | none =>
      have hstep := apply_absent filePath op hop channels hreg
      have hstart : run filePath channels (op :: rest) = run filePath channels rest := by
        simp only [run, List.foldl_cons, hstep]
      rw [hstart, List.filter_cons]
      simp only [hreg, Option.isSome_none, Bool.false_eq_true, if_false]
      exact hrest channels
    | some c =>
      rw [List.filter_cons]
      simp only [hreg, Option.isSome_some, if_true]
      have h1 : run filePath channels (op :: rest)
          = run filePath (op.apply filePath channels) rest := rfl
      have h2 : run filePath channels
            (op :: rest.filter (fun x => (channels.get? x.name).isSome))
          = run filePath (op.apply filePath channels)
              (rest.filter (fun x => (channels.get? x.name).isSome)) := rfl
      rw [h1, h2, hrest (op.apply filePath channels), hsame]

theorem visitClause_absent (filePath : String) (chs : Registry) (clause : Node)
    (h : ∀ name ∈ clauseNames clause, chs.get? name = none) :
    visitClause filePath chs clause = chs := by
  rw [visitClause_eq_run]
  apply run_absent
  intro op hop
  have := clauseOps_names filePath clause op hop
  exact ⟨this.1, h _ this.2⟩

theorem visitResult_absent (filePath : String) (line : Nat) (chs : Registry) (result : Node)
    (h : ∀ name ∈ (chanFieldNames result).take 1, chs.get? name = none) :
    visitResult filePath line chs result = chs := by
  rw [visitResult_eq_run]
  apply run_absent
  intro op hop
  have := resultOps_names filePath line result op hop
  exact ⟨this.1, h _ this.2⟩

/-- C4: when the callback of `analyzeFile` visits a usage node (a direct send
or receive, a select statement with its send and receive cases, a function
declaration with its channel-typed results and parameters), a usage whose
identifier is not a key of the registry at that moment is ignored.
(1) No record is created for a name that is not a key.
(2) When none of the identifiers the node looks up is a key, the registry is
left exactly as it was.
(3) When the node mixes registered and unregistered identifiers, the visit does
exactly what the writes for the registered identifiers alone do: leaving out
every write whose identifier is unregistered changes nothing.
(4)-(6) Each single usage is a no-op on whatever registry it meets: a select
case whose identifier is not a key, a result field whose looked-up name is not
a key, and a parameter name that is not a key each return the registry
unchanged, so no list of any existing record changes. -/
theorem unregistered_usage_ignored (filePath : String) (channels : Registry) (node : Node)
    (hu : isUsageNode node = true) :
    (∀ name, channels.get? name = none → (visit filePath channels node).get? name = none) ∧
    ((∀ name ∈ usageNames node, channels.get? name = none) →
      visit filePath channels node = channels) ∧
    visit filePath channels node
      = run filePath channels
          ((script filePath node).filter (fun op => (channels.get? op.name).isSome)) ∧
    (∀ (chs : Registry) (clause : Node),
      (∀ name ∈ clauseNames clause, chs.get? name = none) →
        visitClause filePath chs clause = chs) ∧
    (∀ (chs : Registry) (line : Nat) (result : Node),
      (∀ name ∈ (chanFieldNames result).take 1, chs.get? name = none) →
        visitResult filePath line chs result = chs) ∧
    (∀ (chs : Registry) (line : Nat) (name : String),
      chs.get? name = none → visitParamName filePath line chs name = chs) := by
  refine ⟨?_, ?_, ?_, visitClause_absent filePath,
    fun chs line result => visitResult_absent filePath line chs result, ?_⟩
  · intro name hname
    rw [visit_eq_run, get?_run, hname]
    exact foldl_onKey_none filePath name _
      (fun op hop => (script_usage filePath node hu op hop).1)
  · intro h
    rw [visit_eq_run]
    apply run_absent
    intro op hop
    have := script_usage filePath node hu op hop
    exact ⟨this.1, h _ this.2⟩
  · rw [visit_eq_run]
    exact run_filter_registered filePath _
      (fun op hop => (script_usage filePath node hu op hop).1) channels
  · intro chs line name hname
    exact Registry.modify_absent chs name _ hname

/-- Witness of C4 on `func f(ch, ghost chan int)` met with `ch` registered and
`ghost` not: no record is created for `ghost` and the registry ends as the one
write for `ch` leaves it; and on `func pair() (a, b chan int)` met with only
`b` registered, where the looked-up name `a` is not a key. -/
theorem unregistered_usage_ignored_witness :
    isUsageNode mixedParamDecl = true
      ∧ Registry.get? [("ch", declaredRecord "ch")] "ghost" = none
      ∧ (visit "main.go" [("ch", declaredRecord "ch")] mixedParamDecl).get? "ghost" = none
      ∧ visit "main.go" [("ch", declaredRecord "ch")] mixedParamDecl
          = [("ch", addPassedTo "main.go" "main.go:30" (declaredRecord "ch"))]
      ∧ (∀ name ∈ usageNames groupedResultDecl,
          Registry.get? [("b", declaredRecord "b")] name = none)
      ∧ visit "main.go" [("b", declaredRecord "b")] groupedResultDecl
          = [("b", declaredRecord "b")] :=
  ⟨rfl, rfl,
    (unregistered_usage_ignored "main.go" [("ch", declaredRecord "ch")] mixedParamDecl rfl).1
      "ghost" rfl,
    (unregistered_usage_ignored "main.go" [("ch", declaredRecord "ch")] mixedParamDecl
      rfl).2.2.1.trans (by decide),
    by decide,
    (unregistered_usage_ignored "main.go" [("b", declaredRecord "b")] groupedResultDecl rfl).2.1
      (by decide)⟩

/-! ## Declarations -/

theorem declareOps_fresh (filePath : String) (line : Nat) (lhs : List Node) (rest : List Node) :
    ∀ (i : Nat), ∀ op ∈ declareOps filePath line lhs i rest,
      ∃ name value, op = .declare name (newChannelInfo filePath line name value) := by
  induction rest with
  | nil => intro i op hop; simp [declareOps] at hop
  | cons v rest ih =>
    intro i op hop
    simp only [declareOps, List.mem_append] at hop
    rcases hop with hop | hop
    · unfold declareOpAt at hop
      cases hv : makeChanValue v with
      | none => simp [hv] at hop
      | some value =>
        cases hl : lhs[i]? with
        | none => simp [hv, hl] at hop
        | some x =>
          cases hx : asIdent x with
          | none => simp [hv, hl, hx] at hop
          | some name =>
            simp [hv, hl, hx] at hop
            exact ⟨name, value, hop⟩
    · exact ih (i + 1) op hop

theorem declareOps_names (filePath : String) (line : Nat) (lhs : List Node) (rest : List Node) :
    ∀ (i : Nat), (declareOps filePath line lhs i rest).map Op.name
      = declaredNamesFrom lhs i rest := by
  induction rest with
  | nil => intro i; rfl
  | cons v rest ih =>
    intro i
    simp only [declareOps, declaredNamesFrom, List.map_append, ih]
    congr 1
    unfold declareOpAt declaredNameAt
    cases hv : makeChanValue v with
    | none => simp
    | some value =>
      cases hl : lhs[i]? with
      | none => simp
      | some x => cases hx : asIdent x <;> simp [hx, Op.name]

theorem mem_declaredNamesFrom (lhs : List Node) (n : String) (rest : List Node) :
    ∀ (i j : Nat) (v value x : Node), rest[j]? = some v → makeChanValue v = some value →
      lhs[i + j]? = some x → asIdent x = some n → n ∈ declaredNamesFrom lhs i rest := by
  induction rest with
  | nil => intro i j v value x hj; simp at hj
  | cons w rest ih =>
    intro i j v value x hj hv hl hx
    cases j with
    | zero =>
      simp at hj
      subst hj
      simp at hl
      simp [declaredNamesFrom, declaredNameAt, hv, hl, hx]
    | succ j =>
      simp at hj
      have hl2 : lhs[(i + 1) + j]? = some x := by
        rw [← hl]; congr 1; omega
      simp only [declaredNamesFrom, List.mem_append]
      exact Or.inr (ih (i + 1) j v value x hj hv hl2 hx)

theorem foldl_onKey_fresh (filePath : String) (line : Nat) (n : String) (ops : List Op)
    (h : ∀ op ∈ ops, ∃ name value, op = .declare name (newChannelInfo filePath line name value)) :
    ∀ o : Option ChannelInfo,
      (n ∈ ops.map Op.name →
        ∃ value, ops.foldl (Op.onKey filePath n) o = some (newChannelInfo filePath line n value)) ∧
      (n ∉ ops.map Op.name → ops.foldl (Op.onKey filePath n) o = o) := by
  induction ops with
  | nil => intro o; simp
  | cons op rest ih =>
    intro o
    obtain ⟨name, value, rfl⟩ := h _ (List.mem_cons_self _ _)
    have ih2 := ih (fun o ho => h o (List.mem_cons_of_mem _ ho))
    by_cases hrest : n ∈ rest.map Op.name
    · refine ⟨fun _ => ?_, fun hn => ?_⟩
      · simpa [List.foldl_cons] using (ih2 _).1 hrest
      · exact absurd (by simp at hrest ⊢; exact Or.inr hrest) hn
    · refine ⟨fun hn => ?_, fun hn => ?_⟩
      · have hname : name = n := by
          simp only [List.map_cons, List.mem_cons, Op.name] at hn
          rcases hn with hn | hn
          · exact hn.symm
          · exact absurd hn hrest
        subst hname
        refine ⟨value, ?_⟩
        rw [List.foldl_cons, (ih2 _).2 hrest]
        simp [Op.onKey]
      · have hname : ¬ name = n := by
          intro hname
          apply hn
          simp [Op.name, hname]
        rw [List.foldl_cons, (ih2 _).2 hrest]
        simp [Op.onKey, hname]

/-- C5 (as stated, refuted): visiting `a, b := make(chan int), make(chan string)`
declares `a` through its pair 0, and the record of the other name `b`, which
had one recorded send, is replaced as well. -/
theorem declaration_frame_fails :
    usedRegistry.get? "b" = some (addSendOp "main.go" "main.go:7" (declaredRecord "b"))
      ∧ "b" ≠ "a"
      ∧ (visit "main.go" usedRegistry pairDeclaration).get? "a"
          = some (newChannelInfo "main.go" 9 "a" (.ident "int"))
      ∧ (visit "main.go" usedRegistry pairDeclaration).get? "b"
          = some (newChannelInfo "main.go" 9 "b" (.ident "string"))
      ∧ (visit "main.go" usedRegistry pairDeclaration).get? "b" ≠ usedRegistry.get? "b" := by
  decide

/-- C5 (amended): for every assignment statement in file `filePath` at line
`line` whose `i`-th right-hand expression is a call `make(chan T, ...)` and whose
`i`-th left-hand expression is a plain identifier `n`, after the callback of
`analyzeFile` visits it the registry maps `n` to a record with `Name = n`,
`Location = "filePath:line"`, `Declaration = "Declared at filePath:line"`, empty
`SendOps`, `ReceiveOps`, `ReturnedFrom` and `PassedTo`, and
`UsedInFiles = [filePath]`, whether or not `n` was registered before; and the
binding of every name that no pair of the statement declares is unchanged. -/
theorem declaration_record (filePath : String) (line : Nat) (lhs : List Node) (rhs0 : Node)
    (rhs : List Node) (channels : Registry) (i : Nat) (n : String) (value : Node)
    (args : List Node)
    (hr : (rhs0 :: rhs)[i]? = some (.callExpr (.ident "make") (.chanType value :: args)))
    (hl : lhs[i]? = some (.ident n)) :
    (∃ c, (visit filePath channels (.assignStmt line lhs rhs0 rhs)).get? n = some c ∧
      c.Name = n ∧ c.Location = filePath ++ ":" ++ toString line ∧
      c.Declaration = "Declared at " ++ (filePath ++ ":" ++ toString line) ∧
      c.SendOps = [] ∧ c.ReceiveOps = [] ∧ c.ReturnedFrom = [] ∧ c.PassedTo = [] ∧
      c.UsedInFiles = [filePath]) ∧
    (∀ m, m ∉ (Node.assignStmt line lhs rhs0 rhs).declares →
      (visit filePath channels (.assignStmt line lhs rhs0 rhs)).get? m = channels.get? m) := by
  have hfold := fun m => foldl_onKey_fresh filePath line m
    (declareOps filePath line lhs 0 (rhs0 :: rhs))
    (declareOps_fresh filePath line lhs (rhs0 :: rhs) 0)
  have hvisit : ∀ m, (visit filePath channels (.assignStmt line lhs rhs0 rhs)).get? m
      = (declareOps filePath line lhs 0 (rhs0 :: rhs)).foldl (Op.onKey filePath m)
          (channels.get? m) := by
    intro m
    rw [visit_eq_run, get?_run]
    rfl
  constructor
  · have hmem : n ∈ declaredNamesFrom lhs 0 (rhs0 :: rhs) :=
      mem_declaredNamesFrom lhs n (rhs0 :: rhs) 0 i _ value (.ident n) hr
        (by simp [makeChanValue]) (by simpa using hl) rfl
    rw [← declareOps_names filePath line] at hmem
    obtain ⟨value2, hv⟩ := (hfold n (channels.get? n)).1 hmem
    refine ⟨_, (hvisit n).trans hv, ?_⟩
    simp [newChannelInfo, location]
  · intro m hm
    rw [hvisit m]
    apply (hfold m (channels.get? m)).2
    rw [declareOps_names]
    exact hm

/-- Witness of C5 at `ch := make(chan int)` on line 4 of `main.go`, met with an
empty registry. -/
theorem declaration_record_witness :
    (∃ c, (visit "main.go" [] (.assignStmt 4 [.ident "ch"] (makeChan "int") [])).get? "ch" = some c ∧
      c.Name = "ch" ∧ c.Location = "main.go" ++ ":" ++ toString 4 ∧
      c.Declaration = "Declared at " ++ ("main.go" ++ ":" ++ toString 4) ∧
      c.SendOps = [] ∧ c.ReceiveOps = [] ∧ c.ReturnedFrom = [] ∧ c.PassedTo = [] ∧
      c.UsedInFiles = ["main.go"]) ∧
    (∀ m, m ∉ (Node.assignStmt 4 [.ident "ch"] (makeChan "int") []).declares →
      (visit "main.go" [] (.assignStmt 4 [.ident "ch"] (makeChan "int") [])).get? m
        = Registry.get? [] m) :=
  declaration_record "main.go" 4 [.ident "ch"] (makeChan "int") [] [] 0 "ch" (.ident "int") []
    rfl rfl

/-! ## What a sequence of writes does to one record -/

theorem clauseOps_wellFormed (filePath : String) (clause : Node) :
    ∀ op ∈ clauseOps filePath clause, op.WellFormed filePath := by
  intro op hop
  unfold clauseOps at hop
  split at hop
  · rename_i line lhs rhs0 rhs body
    cases h : receivedIdent rhs0 with
    | none => simp [h] at hop
    | some name =>
      simp [h] at hop
      subst hop
      exact ⟨line, Or.inr rfl⟩
  · rename_i line chan value body
    cases h : asIdent chan with
    | none => simp [h] at hop
    | some name =>
      simp [h] at hop
      subst hop
      exact ⟨line, Or.inr rfl⟩
  · simp at hop

theorem script_wellFormed (filePath : String) (node : Node) :
    ∀ op ∈ script filePath node, op.WellFormed filePath := by
  intro op hop
  cases node with
  | assignStmt line lhs rhs0 rhs =>
    obtain ⟨name, value, rfl⟩ := declareOps_fresh filePath line lhs _ 0 op hop
    exact ⟨line, value, rfl⟩
  | sendStmt line chan value =>
    simp only [script] at hop
    cases h : asIdent chan with
    | none => simp [h] at hop
    | some name =>
      simp [h] at hop
      subst hop
      exact ⟨line, Or.inl rfl⟩
  | unaryExpr line tok x =>
    simp only [script] at hop
    by_cases ht : tok = Token.ARROW
    · cases h : asIdent x with
      | none => simp [ht, h] at hop
      | some name =>
        simp [ht, h] at hop
        subst hop
        exact ⟨line, Or.inl rfl⟩
    · simp [ht] at hop
  | selectStmt clauses =>
    simp only [script, List.mem_flatMap] at hop
    obtain ⟨clause, _, hmem⟩ := hop
    exact clauseOps_wellFormed filePath clause op hmem
  | funcDecl line recv name typeParams params results body =>
    simp only [script, List.mem_append, List.mem_flatMap] at hop
    rcases hop with ⟨result, _, hmem⟩ | ⟨param, _, hmem⟩
    · unfold resultOps at hmem
      cases h : chanFieldNames result with
      | nil => simp [h] at hmem
      | cons nm rest =>
        simp [h] at hmem
        subst hmem
        exact ⟨line, rfl⟩
    · unfold paramOps at hmem
      obtain ⟨nm, _, rfl⟩ := List.mem_map.mp hmem
      exact ⟨line, rfl⟩
  | _ => simp [script] at hop

theorem fileScript_wellFormed (filePath : String) (tree : Node) :
    ∀ op ∈ fileScript filePath tree, op.WellFormed filePath := by
  intro op hop
  obtain ⟨node, _, hmem⟩ := List.mem_flatMap.mp hop
  exact script_wellFormed filePath node op hmem

theorem script_declares (filePath : String) (node : Node) :
    ∀ op ∈ script filePath node, op.isDeclare = true → op.name ∈ node.declares := by
  intro op hop hd
  cases node with
  | assignStmt line lhs rhs0 rhs =>
    simp only [Node.declares, ← declareOps_names filePath line]
    exact List.mem_map_of_mem _ hop
  | sendStmt line chan value =>
    have := (script_usage filePath (.sendStmt line chan value) rfl op hop).1
    simp [this] at hd
  | unaryExpr line tok x =>
    have := (script_usage filePath (.unaryExpr line tok x) rfl op hop).1
    simp [this] at hd
  | selectStmt clauses =>
    have := (script_usage filePath (.selectStmt clauses) rfl op hop).1
    simp [this] at hd
  | funcDecl line recv name typeParams params results body =>
    have := (script_usage filePath (.funcDecl line recv name typeParams params results body) rfl op hop).1
    simp [this] at hd
  | _ => simp [script] at hop

theorem flatMap_script_declares (filePath : String) (nodes : List Node) :
    ∀ op ∈ nodes.flatMap (script filePath), op.isDeclare = true →
      op.name ∈ nodes.flatMap Node.declares := by
  intro op hop hd
  obtain ⟨node, hnode, hmem⟩ := List.mem_flatMap.mp hop
  exact List.mem_flatMap.mpr ⟨node, hnode, script_declares filePath node op hmem hd⟩

/-- A sequence of writes none of which inserts a record for `n` extends the
four usage lists of the record of `n` by the locations written for `n`, in
order, and leaves its name, type and declaration site alone. -/
theorem foldl_onKey_usage (filePath n : String) (ops : List Op)
    (h : ∀ op ∈ ops, op.isDeclare = true → op.name ≠ n) :
    ∀ c : ChannelInfo, ∃ c', ops.foldl (Op.onKey filePath n) (some c) = some c' ∧
      c'.Name = c.Name ∧ c'.Type_ = c.Type_ ∧ c'.Location = c.Location ∧
      c'.Declaration = c.Declaration ∧
      c'.SendOps = c.SendOps ++ ops.filterMap (Op.sendLoc n) ∧
      c'.ReceiveOps = c.ReceiveOps ++ ops.filterMap (Op.receiveLoc n) ∧
      c'.ReturnedFrom = c.ReturnedFrom ++ ops.filterMap (Op.returnedLoc n) ∧
      c'.PassedTo = c.PassedTo ++ ops.filterMap (Op.passedLoc n) := by
  induction ops with
  | nil => intro c; exact ⟨c, rfl, by simp⟩
  | cons op rest ih =>
    intro c
    have ih2 := ih (fun o ho => h o (List.mem_cons_of_mem _ ho))
    have hop := h op (List.mem_cons_self _ _)
    cases op with
    | declare name c0 =>
      have hname : ¬ name = n := hop rfl
      obtain ⟨c', hc', h1, h2, h3, h4, h5, h6, h7, h8⟩ := ih2 c
      refine ⟨c', ?_, h1, h2, h3, h4, ?_, ?_, ?_, ?_⟩
      · simpa [List.foldl_cons, Op.onKey, hname] using hc'
      all_goals simp_all [Op.sendLoc, Op.receiveLoc, Op.returnedLoc, Op.passedLoc]
    | send name loc =>
      by_cases hname : name = n
      · obtain ⟨c', hc', h1, h2, h3, h4, h5, h6, h7, h8⟩ := ih2 (addSendOp filePath loc c)
        refine ⟨c', ?_, ?_, ?_, ?_, ?_, ?_, ?_, ?_, ?_⟩
        · simpa [List.foldl_cons, Op.onKey, hname] using hc'
        all_goals
          simp_all [Op.sendLoc, Op.receiveLoc, Op.returnedLoc, Op.passedLoc, addSendOp]
      · obtain ⟨c', hc', h1, h2, h3, h4, h5, h6, h7, h8⟩ := ih2 c
        refine ⟨c', ?_, h1, h2, h3, h4, ?_, ?_, ?_, ?_⟩
        · simpa [List.foldl_cons, Op.onKey, hname] using hc'
        all_goals simp_all [Op.sendLoc, Op.receiveLoc, Op.returnedLoc, Op.passedLoc]
    | receive name loc =>
      by_cases hname : name = n
      · obtain ⟨c', hc', h1, h2, h3, h4, h5, h6, h7, h8⟩ := ih2 (addReceiveOp filePath loc c)
        refine ⟨c', ?_, ?_, ?_, ?_, ?_, ?_, ?_, ?_, ?_⟩
        · simpa [List.foldl_cons, Op.onKey, hname] using hc'
        all_goals
          simp_all [Op.sendLoc, Op.receiveLoc, Op.returnedLoc, Op.passedLoc, addReceiveOp]
      · obtain ⟨c', hc', h1, h2, h3, h4, h5, h6, h7, h8⟩ := ih2 c
        refine ⟨c', ?_, h1, h2, h3, h4, ?_, ?_, ?_, ?_⟩
        · simpa [List.foldl_cons, Op.onKey, hname] using hc'
        all_goals simp_all [Op.sendLoc, Op.receiveLoc, Op.returnedLoc, Op.passedLoc]
    | returned name loc =>
      by_cases hname : name = n
      · obtain ⟨c', hc', h1, h2, h3, h4, h5, h6, h7, h8⟩ := ih2 (addReturnedFrom filePath loc c)
        refine ⟨c', ?_, ?_, ?_, ?_, ?_, ?_, ?_, ?_, ?_⟩
        · simpa [List.foldl_cons, Op.onKey, hname] using hc'
        all_goals
          simp_all [Op.sendLoc, Op.receiveLoc, Op.returnedLoc, Op.passedLoc, addReturnedFrom]
      · obtain ⟨c', hc', h1, h2, h3, h4, h5, h6, h7, h8⟩ := ih2 c
        refine ⟨c', ?_, h1, h2, h3, h4, ?_, ?_, ?_, ?_⟩
        · simpa [List.foldl_cons, Op.onKey, hname] using hc'
        all_goals simp_all [Op.sendLoc, Op.receiveLoc, Op.returnedLoc, Op.passedLoc]
    | passed name loc =>
      by_cases hname : name = n
      · obtain ⟨c', hc', h1, h2, h3, h4, h5, h6, h7, h8⟩ := ih2 (addPassedTo filePath loc c)
        refine ⟨c', ?_, ?_, ?_, ?_, ?_, ?_, ?_, ?_, ?_⟩
        · simpa [List.foldl_cons, Op.onKey, hname] using hc'
        all_goals
          simp_all [Op.sendLoc, Op.receiveLoc, Op.returnedLoc, Op.passedLoc, addPassedTo]
      · obtain ⟨c', hc', h1, h2, h3, h4, h5, h6, h7, h8⟩ := ih2 c
        refine ⟨c', ?_, h1, h2, h3, h4, ?_, ?_, ?_, ?_⟩
        · simpa [List.foldl_cons, Op.onKey, hname] using hc'
        all_goals simp_all [Op.sendLoc, Op.receiveLoc, Op.returnedLoc, Op.passedLoc]

/-! ## Append-only usage lists -/

/-- C7 (as stated, refuted): `ch` is registered with one send site; after the
analysis of a file that declares `ch` again its `SendOps` is empty, so the list
before the run is not a prefix of the list after it. -/
theorem redeclaration_drops_usages :
    (sentRegistry.get? "ch").map (fun c => c.SendOps) = some ["main.go:7"]
      ∧ ((analyzeFile "other.go" (some redeclareFile) sentRegistry).get? "ch").map
          (fun c => c.SendOps) = some []
      ∧ ¬ (["main.go:7"] <+: ([] : List String)) := by
  decide

/-- C7 (amended): the usage lists are append-only between declarations: for
every registry, every parse result and every name `n` registered before
`analyzeFile` runs that the tree does not declare again (no assignment in it
pairs the identifier `n` with a `make(chan ...)` call), `n` is still registered
after the run and the `SendOps`, `ReceiveOps`, `ReturnedFrom` and `PassedTo` of
its record before the run are prefixes of the same lists after the run. -/
theorem usage_lists_append_only (filePath : String) (parsed : Option Node)
    (channels : Registry) (n : String) (c : ChannelInfo)
    (hget : channels.get? n = some c)
    (hdecl : ∀ tree, parsed = some tree → n ∉ treeDeclares tree) :
    ∃ c', (analyzeFile filePath parsed channels).get? n = some c' ∧
      c.SendOps <+: c'.SendOps ∧ c.ReceiveOps <+: c'.ReceiveOps ∧
      c.ReturnedFrom <+: c'.ReturnedFrom ∧ c.PassedTo <+: c'.PassedTo := by
  cases parsed with
  | none => exact ⟨c, hget, List.prefix_refl _, List.prefix_refl _, List.prefix_refl _,
      List.prefix_refl _⟩
  | some tree =>
    have hno : ∀ op ∈ fileScript filePath tree, op.isDeclare = true → op.name ≠ n := by
      intro op hop hd hname
      have := flatMap_script_declares filePath tree.preorder op hop hd
      rw [hname] at this
      exact hdecl tree rfl this
    obtain ⟨c', hc', _, _, _, _, h5, h6, h7, h8⟩ :=
      foldl_onKey_usage filePath n (fileScript filePath tree) hno c
    refine ⟨c', ?_, ?_, ?_, ?_, ?_⟩
    · rw [analyzeFile_some, get?_run, hget]; exact hc'
    · rw [h5]; exact List.prefix_append _ _
    · rw [h6]; exact List.prefix_append _ _
    · rw [h7]; exact List.prefix_append _ _
    · rw [h8]; exact List.prefix_append _ _

/-- Witness of C7: `ch` with one send site, and a file that sends on `ch` once more. -/
theorem usage_lists_append_only_witness :
    sentRegistry.get? "ch" = some (addSendOp "main.go" "main.go:7" (declaredRecord "ch"))
      ∧ "ch" ∉ treeDeclares (mainFile [.sendStmt 4 (.ident "ch") (.other [])])
      ∧ ∃ c', (analyzeFile "other.go" (some (mainFile [.sendStmt 4 (.ident "ch") (.other [])]))
            sentRegistry).get? "ch" = some c' ∧
          (addSendOp "main.go" "main.go:7" (declaredRecord "ch")).SendOps <+: c'.SendOps ∧
          (addSendOp "main.go" "main.go:7" (declaredRecord "ch")).ReceiveOps <+: c'.ReceiveOps ∧
          (addSendOp "main.go" "main.go:7" (declaredRecord "ch")).ReturnedFrom
            <+: c'.ReturnedFrom ∧
          (addSendOp "main.go" "main.go:7" (declaredRecord "ch")).PassedTo <+: c'.PassedTo :=
  ⟨rfl, by decide,
    usage_lists_append_only "other.go" (some (mainFile [.sendStmt 4 (.ident "ch") (.other [])]))
      sentRegistry "ch" _ rfl (fun tree htree => by
        have : tree = mainFile [.sendStmt 4 (.ident "ch") (.other [])] :=
          (Option.some.inj htree).symm
        subst this
        decide)⟩

/-! ## Function declarations -/

/-- C8 (code evaluated at the failing input): for `func pair() (a, b chan int)`
with `a` and `b` both registered, the callback appends the location of the
declaration to the `ReturnedFrom` of `a` only; the second name of the grouped
result is never looked up. -/
theorem grouped_result_second_name_skipped :
    ((visit "main.go" pairRegistry groupedResultDecl).get? "a").map (fun c => c.ReturnedFrom)
        = some ["main.go:12"]
      ∧ ((visit "main.go" pairRegistry groupedResultDecl).get? "b").map (fun c => c.ReturnedFrom)
        = some [] := by
  decide

theorem filterMap_passedLoc_names (n loc : String) (names : List String) :
    (names.map (fun name => Op.passed name loc)).filterMap (Op.passedLoc n)
      = List.replicate (names.count n) loc := by
  induction names with
  | nil => rfl
  | cons name rest ih =>
    by_cases h : name = n
    · subst h
      simp [Op.passedLoc, ih, List.replicate_succ]
    · have h2 : ¬ (name == n) = true := by simpa using h
      simp [Op.passedLoc, ih, h, List.count_cons, h2]

theorem flatMap_paramOps (filePath : String) (line : Nat) (fields : List Node) :
    fields.flatMap (paramOps filePath line)
      = (fields.flatMap chanFieldNames).map
          (fun name => Op.passed name (location filePath line)) := by
  induction fields with
  | nil => rfl
  | cons field rest ih => simp [List.flatMap_cons, ih, paramOps]

theorem filterMap_passedLoc_results (filePath : String) (line : Nat) (n : String)
    (fields : List Node) :
    (fields.flatMap (resultOps filePath line)).filterMap (Op.passedLoc n) = [] := by
  induction fields with
  | nil => rfl
  | cons field rest ih =>
    simp only [List.flatMap_cons, List.filterMap_append, ih, List.append_nil]
    unfold resultOps
    cases chanFieldNames field <;> simp [Op.passedLoc]

/-- C9: when the callback of `analyzeFile` visits a function declaration of
`filePath` at line `line`, the `PassedTo` of every registered name `n` grows by
exactly one entry `"filePath:line"` for each occurrence of `n` among the names of
the channel-typed parameter fields, and by nothing else; in particular it is
unchanged when no channel-typed parameter is named `n`, whatever the parameters
of other types are called. -/
theorem passedTo_once_per_parameter (filePath : String) (line : Nat)
    (recv : Option (List Node)) (name : String) (typeParams params results : Option (List Node))
    (body : Option Node) (channels : Registry) (n : String) (c : ChannelInfo)
    (hget : channels.get? n = some c) :
    ∃ c', (visit filePath channels
        (.funcDecl line recv name typeParams params results body)).get? n = some c' ∧
      c'.PassedTo = c.PassedTo ++
        List.replicate (((fieldsOf params).flatMap chanFieldNames).count n)
          (filePath ++ ":" ++ toString line) ∧
      ((∀ param ∈ fieldsOf params, n ∉ chanFieldNames param) → c'.PassedTo = c.PassedTo) := by
  have hno : ∀ op ∈ script filePath (.funcDecl line recv name typeParams params results body),
      op.isDeclare = true → op.name ≠ n := by
    intro op hop hd
    have := (script_usage filePath
      (.funcDecl line recv name typeParams params results body) rfl op hop).1
    simp [this] at hd
  obtain ⟨c', hc', _, _, _, _, _, _, _, h8⟩ := foldl_onKey_usage filePath n _ hno c
  have hlocs : (script filePath (.funcDecl line recv name typeParams params results body)).filterMap
      (Op.passedLoc n)
      = List.replicate (((fieldsOf params).flatMap chanFieldNames).count n)
          (location filePath line) := by
    simp only [script, List.filterMap_append, filterMap_passedLoc_results, List.nil_append,
      flatMap_paramOps, filterMap_passedLoc_names]
  rw [hlocs] at h8
  refine ⟨c', ?_, h8, ?_⟩
  · rw [visit_eq_run, get?_run, hget]; exact hc'
  · intro hnone
    have hcount : ((fieldsOf params).flatMap chanFieldNames).count n = 0 := by
      apply List.count_eq_zero.mpr
      intro hmem
      obtain ⟨param, hp, hn⟩ := List.mem_flatMap.mp hmem
      exact hnone param hp hn
    rw [h8, hcount]
    simp

/-- Witness of C9: `func worker(id int, ch chan int, done chan bool)` with `ch`
registered. -/
theorem passedTo_once_per_parameter_witness :
    Registry.get? [("ch", declaredRecord "ch")] "ch" = some (declaredRecord "ch")
      ∧ ((visit "main.go" [("ch", declaredRecord "ch")] workerDecl).get? "ch").map
          (fun c => c.PassedTo) = some ["main.go:20"] := by
  refine ⟨rfl, ?_⟩
  obtain ⟨c', hc', hp, _⟩ := passedTo_once_per_parameter "main.go" 20 none "worker" none
    (some [.field ["id"] (.ident "int"), .field ["ch"] (.chanType (.ident "int")),
      .field ["done"] (.chanType (.ident "bool"))])
    none (some (.other [])) [("ch", declaredRecord "ch")] "ch" (declaredRecord "ch") rfl
  have hv : (visit "main.go" [("ch", declaredRecord "ch")] workerDecl).get? "ch" = some c' := hc'
  rw [hv, Option.map_some', hp]
  decide

/-! ## `UsedInFiles` -/

theorem appendIfNotExists_eq (slice : List String) (str : String) :
    appendIfNotExists slice str = if str ∈ slice then slice else slice ++ [str] := by
  unfold appendIfNotExists
  by_cases h : str ∈ slice
  · have : (slice.any fun s => s == str) = true := by
      simp only [List.any_eq_true]
      exact ⟨str, h, by simp⟩
    simp [this, h]
  · have : ¬ (slice.any fun s => s == str) = true := by
      simp only [List.any_eq_true, not_exists, not_and]
      intro s hs heq
      have : s = str := by simpa using heq
      exact h (this ▸ hs)
    simp [this, h]

theorem mem_appendIfNotExists_self (slice : List String) (str : String) :
    str ∈ appendIfNotExists slice str := by
  rw [appendIfNotExists_eq]
  by_cases h : str ∈ slice <;> simp [h]

theorem mem_appendIfNotExists_of_mem (slice : List String) (str s : String) (h : s ∈ slice) :
    s ∈ appendIfNotExists slice str := by
  rw [appendIfNotExists_eq]
  by_cases hs : str ∈ slice <;> simp [hs, h]

theorem appendIfNotExists_nodup (slice : List String) (str : String) (h : slice.Nodup) :
    (appendIfNotExists slice str).Nodup := by
  rw [appendIfNotExists_eq]
  by_cases hs : str ∈ slice
  · simpa [hs] using h
  · simp only [hs, if_false]
    exact List.Nodup.append h (List.nodup_singleton _) (by simpa using hs)

theorem appendIfNotExists_idem (slice : List String) (str : String) :
    appendIfNotExists (appendIfNotExists slice str) str = appendIfNotExists slice str := by
  have h := mem_appendIfNotExists_self slice str
  rw [appendIfNotExists_eq (appendIfNotExists slice str) str, if_pos h]

theorem onKey_nodup (filePath n : String) (op : Op) (hop : op.WellFormed filePath)
    (o : Option ChannelInfo) (ho : ∀ c, o = some c → c.UsedInFiles.Nodup) :
    ∀ c, op.onKey filePath n o = some c → c.UsedInFiles.Nodup := by
  intro c hc
  cases op with
  | declare name c0 =>
    obtain ⟨line, value, rfl⟩ := hop
    by_cases h : name = n
    · simp [Op.onKey, h] at hc
      subst hc
      simp [newChannelInfo]
    · simp [Op.onKey, h] at hc
      exact ho c hc
  | send name loc =>
    by_cases h : name = n
    · simp [Op.onKey, h] at hc
      obtain ⟨c0, hc0, rfl⟩ := hc
      exact appendIfNotExists_nodup _ _ (ho c0 hc0)
    · simp [Op.onKey, h] at hc
      exact ho c hc
  | receive name loc =>
    by_cases h : name = n
    · simp [Op.onKey, h] at hc
      obtain ⟨c0, hc0, rfl⟩ := hc
      exact appendIfNotExists_nodup _ _ (ho c0 hc0)
    · simp [Op.onKey, h] at hc
      exact ho c hc
  | returned name loc =>
    by_cases h : name = n
    · simp [Op.onKey, h] at hc
      obtain ⟨c0, hc0, rfl⟩ := hc
      exact appendIfNotExists_nodup _ _ (ho c0 hc0)
    · simp [Op.onKey, h] at hc
      exact ho c hc
  | passed name loc =>
    by_cases h : name = n
    · simp [Op.onKey, h] at hc
      obtain ⟨c0, hc0, rfl⟩ := hc
      exact appendIfNotExists_nodup _ _ (ho c0 hc0)
    · simp [Op.onKey, h] at hc
      exact ho c hc

theorem foldl_onKey_nodup (filePath n : String) (ops : List Op)
    (hops : ∀ op ∈ ops, op.WellFormed filePath) :
    ∀ o : Option ChannelInfo, (∀ c, o = some c → c.UsedInFiles.Nodup) →
      ∀ c, ops.foldl (Op.onKey filePath n) o = some c → c.UsedInFiles.Nodup := by
  induction ops with
  | nil => intro o ho c hc; exact ho c hc
  | cons op rest ih =>
    intro o ho c hc
    exact ih (fun x hx => hops x (List.mem_cons_of_mem _ hx)) _
      (onKey_nodup filePath n op (hops op (List.mem_cons_self _ _)) o ho) c hc

theorem analyzeFile_nodup (filePath : String) (parsed : Option Node) (channels : Registry)
    (h : ∀ n c, channels.get? n = some c → c.UsedInFiles.Nodup) :
    ∀ n c, (analyzeFile filePath parsed channels).get? n = some c → c.UsedInFiles.Nodup := by
  intro n c hc
  cases parsed with
  | none => exact h n c hc
  | some tree =>
    rw [analyzeFile_some, get?_run] at hc
    exact foldl_onKey_nodup filePath n _ (fileScript_wellFormed filePath tree) _ (h n) c hc

theorem reachable_nodup (channels : Registry) (h : Reachable channels) :
    ∀ n c, channels.get? n = some c → c.UsedInFiles.Nodup := by
  induction h with
  | empty => intro n c hc; simp [Registry.get?] at hc
  | step filePath parsed channels _ ih => exact analyzeFile_nodup filePath parsed channels ih

theorem onKey_touched (filePath n : String) (op : Op) (hop : op.WellFormed filePath)
    (o : Option ChannelInfo) :
    op.onKey filePath n o = o ∨ ∀ c, op.onKey filePath n o = some c → filePath ∈ c.UsedInFiles := by
  cases op with
  | declare name c0 =>
    obtain ⟨line, value, rfl⟩ := hop
    by_cases h : name = n
    · right
      intro c hc
      simp [Op.onKey, h] at hc
      subst hc
      simp [newChannelInfo]
    · left; simp [Op.onKey, h]
  | send name loc =>
    by_cases h : name = n
    · right
      intro c hc
      simp [Op.onKey, h] at hc
      obtain ⟨c0, _, rfl⟩ := hc
      exact mem_appendIfNotExists_self _ _
    · left; simp [Op.onKey, h]
  | receive name loc =>
    by_cases h : name = n
    · right
      intro c hc
      simp [Op.onKey, h] at hc
      obtain ⟨c0, _, rfl⟩ := hc
      exact mem_appendIfNotExists_self _ _
    · left; simp [Op.onKey, h]
  | returned name loc =>
    by_cases h : name = n
    · right
      intro c hc
      simp [Op.onKey, h] at hc
      obtain ⟨c0, _, rfl⟩ := hc
      exact mem_appendIfNotExists_self _ _
    · left; simp [Op.onKey, h]
  | passed name loc =>
    by_cases h : name = n
    · right
      intro c hc
      simp [Op.onKey, h] at hc
      obtain ⟨c0, _, rfl⟩ := hc
      exact mem_appendIfNotExists_self _ _
    · left; simp [Op.onKey, h]

theorem onKey_keeps_file (filePath n : String) (op : Op) (hop : op.WellFormed filePath)
    (o : Option ChannelInfo) (ho : ∀ c, o = some c → filePath ∈ c.UsedInFiles) :
    ∀ c, op.onKey filePath n o = some c → filePath ∈ c.UsedInFiles := by
  rcases onKey_touched filePath n op hop o with h | h
  · rw [h]; exact ho
  · exact h

theorem foldl_onKey_keeps_file (filePath n : String) (ops : List Op)
    (hops : ∀ op ∈ ops, op.WellFormed filePath) :
    ∀ o : Option ChannelInfo, (∀ c, o = some c → filePath ∈ c.UsedInFiles) →
      ∀ c, ops.foldl (Op.onKey filePath n) o = some c → filePath ∈ c.UsedInFiles := by
  induction ops with
  | nil => intro o ho c hc; exact ho c hc
  | cons op rest ih =>
    intro o ho c hc
    exact ih (fun x hx => hops x (List.mem_cons_of_mem _ hx)) _
      (onKey_keeps_file filePath n op (hops op (List.mem_cons_self _ _)) o ho) c hc

theorem foldl_onKey_touched (filePath n : String) (ops : List Op)
    (hops : ∀ op ∈ ops, op.WellFormed filePath) :
    ∀ o : Option ChannelInfo, ops.foldl (Op.onKey filePath n) o = o ∨
      ∀ c, ops.foldl (Op.onKey filePath n) o = some c → filePath ∈ c.UsedInFiles := by
  induction ops with
  | nil => intro o; exact Or.inl rfl
  | cons op rest ih =>
    intro o
    have hrest := fun x hx => hops x (List.mem_cons_of_mem _ hx)
    rcases onKey_touched filePath n op (hops op (List.mem_cons_self _ _)) o with h | h
    · simpa [List.foldl_cons, h] using ih hrest o
    · right
      intro c hc
      exact foldl_onKey_keeps_file filePath n rest hrest _ h c hc

theorem appendIfNotExists_keeps (slice : List String) (str : String) :
    slice <+: appendIfNotExists slice str := by
  rw [appendIfNotExists_eq]
  by_cases h : str ∈ slice
  · simp [h]
  · simp only [h, if_false]
    exact List.prefix_append _ _

theorem mem_appendIfNotExists_iff (slice : List String) (str x : String) :
    x ∈ appendIfNotExists slice str ↔ x ∈ slice ∨ x = str := by
  rw [appendIfNotExists_eq]
  by_cases h : str ∈ slice
  · simp only [h, if_true]
    constructor
    · exact Or.inl
    · rintro (hx | hx)
      · exact hx
      · rw [hx]; exact h
  · simp [h]

theorem onKey_files (filePath n : String) (op : Op)
    (hop : op.isDeclare = true → op.name ≠ n) (c : ChannelInfo) :
    ∃ c1, op.onKey filePath n (some c) = some c1 ∧
      (c1.UsedInFiles = c.UsedInFiles ∨
        c1.UsedInFiles = appendIfNotExists c.UsedInFiles filePath) := by
  cases op with
  | declare name c0 =>
    have hname : ¬ name = n := hop rfl
    exact ⟨c, by simp [Op.onKey, hname], Or.inl rfl⟩
  | send name loc =>
    by_cases hname : name = n
    · exact ⟨addSendOp filePath loc c, by simp [Op.onKey, hname], Or.inr rfl⟩
    · exact ⟨c, by simp [Op.onKey, hname], Or.inl rfl⟩
  | receive name loc =>
    by_cases hname : name = n
    · exact ⟨addReceiveOp filePath loc c, by simp [Op.onKey, hname], Or.inr rfl⟩
    · exact ⟨c, by simp [Op.onKey, hname], Or.inl rfl⟩
  | returned name loc =>
    by_cases hname : name = n
    · exact ⟨addReturnedFrom filePath loc c, by simp [Op.onKey, hname], Or.inr rfl⟩
    · exact ⟨c, by simp [Op.onKey, hname], Or.inl rfl⟩
  | passed name loc =>
    by_cases hname : name = n
    · exact ⟨addPassedTo filePath loc c, by simp [Op.onKey, hname], Or.inr rfl⟩
    · exact ⟨c, by simp [Op.onKey, hname], Or.inl rfl⟩

/-- A sequence of writes none of which inserts a record for `n` keeps every
path of the `UsedInFiles` of `n`, in order, and adds at most `filePath`. -/
theorem foldl_onKey_files (filePath n : String) (ops : List Op)
    (h : ∀ op ∈ ops, op.isDeclare = true → op.name ≠ n) :
    ∀ c : ChannelInfo, ∃ c', ops.foldl (Op.onKey filePath n) (some c) = some c' ∧
      c.UsedInFiles <+: c'.UsedInFiles ∧
      ∀ x ∈ c'.UsedInFiles, x ∈ c.UsedInFiles ∨ x = filePath := by
  induction ops with
  | nil => intro c; exact ⟨c, rfl, List.prefix_refl _, fun x hx => Or.inl hx⟩
  | cons op rest ih =>
    intro c
    obtain ⟨c1, hc1, hfiles⟩ := onKey_files filePath n op (h op (List.mem_cons_self _ _)) c
    obtain ⟨c', hc', hpre, hmem⟩ := ih (fun x hx => h x (List.mem_cons_of_mem _ hx)) c1
    refine ⟨c', by rw [List.foldl_cons, hc1]; exact hc', ?_, ?_⟩
    · rcases hfiles with hf | hf
      · rw [← hf]; exact hpre
      · exact (appendIfNotExists_keeps c.UsedInFiles filePath).trans (hf ▸ hpre)
    · intro x hx
      rcases hmem x hx with hx1 | hx1
      · rcases hfiles with hf | hf
        · exact Or.inl (hf ▸ hx1)
        · rw [hf] at hx1
          exact (mem_appendIfNotExists_iff _ _ _).mp hx1
      · exact Or.inr hx1

/-- C10: `UsedInFiles` behaves as a set with idempotent add.
(1) In every registry that runs of `analyzeFile` build from the empty registry,
no record's `UsedInFiles` holds a path twice.
(2) Whenever a visit made while analysing `filePath` changes the binding of a
name (a usage append, or a declaration), the record then bound to it has
`filePath` in its `UsedInFiles`.
(3) Adding a path a second time with `appendIfNotExists` changes nothing.
(4) `appendIfNotExists s f` is `s` itself when `f` is in `s`, and `s` followed by
`f` when it is not.
(5) The paths of `appendIfNotExists s f` are those of `s` and `f`.
(6) A visit of a node that does not declare `n` keeps every path already in the
`UsedInFiles` of `n`, in order, and adds no path other than `filePath`. -/
theorem usedInFiles_is_a_set :
    (∀ channels, Reachable channels →
      ∀ n c, channels.get? n = some c → c.UsedInFiles.Nodup) ∧
    (∀ filePath channels node n c',
      (visit filePath channels node).get? n = some c' → channels.get? n ≠ some c' →
        filePath ∈ c'.UsedInFiles) ∧
    (∀ s f, appendIfNotExists (appendIfNotExists s f) f = appendIfNotExists s f) ∧
    (∀ s f, (f ∈ s → appendIfNotExists s f = s) ∧
      (f ∉ s → appendIfNotExists s f = s ++ [f])) ∧
    (∀ s f x, x ∈ appendIfNotExists s f ↔ x ∈ s ∨ x = f) ∧
    (∀ filePath channels node n c, channels.get? n = some c → n ∉ Node.declares node →
      ∃ c', (visit filePath channels node).get? n = some c' ∧
        c.UsedInFiles <+: c'.UsedInFiles ∧
        ∀ x ∈ c'.UsedInFiles, x ∈ c.UsedInFiles ∨ x = filePath) := by
  refine ⟨reachable_nodup, ?_, appendIfNotExists_idem, ?_, mem_appendIfNotExists_iff, ?_⟩
  · intro filePath channels node n c' hc' hne
    rw [visit_eq_run, get?_run] at hc'
    rcases foldl_onKey_touched filePath n _ (script_wellFormed filePath node) (channels.get? n)
      with h | h
    · rw [h] at hc'; exact absurd hc' hne
    · exact h c' hc'
  · intro s f
    rw [appendIfNotExists_eq]
    exact ⟨fun h => by simp [h], fun h => by simp [h]⟩
  · intro filePath channels node n c hget hdecl
    have hno : ∀ op ∈ script filePath node, op.isDeclare = true → op.name ≠ n := by
      intro op hop hd hname
      have := script_declares filePath node op hop hd
      rw [hname] at this
      exact hdecl this
    obtain ⟨c', hc', hpre, hmem⟩ := foldl_onKey_files filePath n _ hno c
    exact ⟨c', by rw [visit_eq_run, get?_run, hget]; exact hc', hpre, hmem⟩

/-- Witness of C10 on the registry built by analysing `selectSendFile`, and on
a send on `ch` made from `a.go` after `b.go` declared `ch`: the record then
lists `b.go` and `a.go`, in that order. -/
theorem usedInFiles_is_a_set_witness :
    Reachable (analyzeFile "main.go" (some selectSendFile) [])
      ∧ (analyzeFile "main.go" (some selectSendFile) []).get? "ch"
          = some (addSendOp "main.go" "main.go:6"
              (addSendOp "main.go" "main.go:6 (select)" (declaredRecord "ch")))
      ∧ (addSendOp "main.go" "main.go:6"
          (addSendOp "main.go" "main.go:6 (select)" (declaredRecord "ch"))).UsedInFiles.Nodup
      ∧ "other.go" ∈ (addSendOp "other.go" "other.go:8" (declaredRecord "ch")).UsedInFiles
      ∧ appendIfNotExists ["b.go"] "a.go" = ["b.go"] ++ ["a.go"]
      ∧ appendIfNotExists ["b.go", "a.go"] "b.go" = ["b.go", "a.go"]
      ∧ ((analyzeFiles [declarerFile, senderFile] []).get? "ch").map (fun c => c.UsedInFiles)
          = some ["b.go", "a.go"]
      ∧ ∃ c', (visit "a.go" (analyzeFiles [declarerFile] []) (.sendStmt 4 (.ident "ch")
            (.other []))).get? "ch" = some c' ∧
          ["b.go"] <+: c'.UsedInFiles ∧ ∀ x ∈ c'.UsedInFiles, x ∈ ["b.go"] ∨ x = "a.go" :=
  ⟨Reachable.step _ _ _ Reachable.empty, by decide,
    usedInFiles_is_a_set.1 _ (Reachable.step "main.go" (some selectSendFile) [] Reachable.empty)
      "ch" _ (by decide),
    usedInFiles_is_a_set.2.1 "other.go" [("ch", declaredRecord "ch")]
      (.sendStmt 8 (.ident "ch") (.other [])) "ch" _ (by decide) (by decide),
    (usedInFiles_is_a_set.2.2.2.1 ["b.go"] "a.go").2 (by decide),
    (usedInFiles_is_a_set.2.2.2.1 ["b.go", "a.go"] "b.go").1 (by decide),
    by decide,
    usedInFiles_is_a_set.2.2.2.2.2 "a.go" (analyzeFiles [declarerFile] [])
      (.sendStmt 4 (.ident "ch") (.other [])) "ch"
      (newChannelInfo "b.go" 4 "ch" (.ident "int")) (by decide) (by decide)⟩

/-! ## Keys of the registry -/

theorem Registry.mem_of_get? (channels : Registry) (k : String) (c : ChannelInfo)
    (h : channels.get? k = some c) : (k, c) ∈ channels := by
  induction channels with
  | nil => simp [Registry.get?] at h
  | cons e rest ih =>
    obtain ⟨k0, c0⟩ := e
    by_cases h0 : k0 = k
    · simp [Registry.get?, h0] at h
      simp [h0, h]
    · simp [Registry.get?, h0] at h
      exact List.mem_cons_of_mem _ (ih h)

theorem Registry.get?_of_mem (channels : Registry) (hnd : channels.keys.Nodup) (k : String)
    (c : ChannelInfo) (h : (k, c) ∈ channels) : channels.get? k = some c := by
  induction channels with
  | nil => simp at h
  | cons e rest ih =>
    obtain ⟨k0, c0⟩ := e
    simp only [Registry.keys, List.map_cons, List.nodup_cons] at hnd
    rcases List.mem_cons.mp h with h | h
    · have h1 : k = k0 := congrArg Prod.fst h
      have h2 : c = c0 := congrArg Prod.snd h
      simp [Registry.get?, h1, h2]
    · have hk : k ∈ rest.map Prod.fst := List.mem_map.mpr ⟨(k, c), h, rfl⟩
      have h0 : ¬ k0 = k := fun h0 => hnd.1 (h0 ▸ hk)
      simp only [Registry.get?, h0, if_false]
      exact ih hnd.2 h

theorem Registry.keys_set (channels : Registry) (k : String) (c : ChannelInfo) :
    (channels.set k c).keys = if k ∈ channels.keys then channels.keys else channels.keys ++ [k] := by
  induction channels with
  | nil => simp [Registry.set, Registry.keys]
  | cons e rest ih =>
    obtain ⟨k0, c0⟩ := e
    simp only [Registry.keys] at ih
    by_cases h0 : k0 = k
    · simp [Registry.set, Registry.keys, h0]
    · have h1 : ¬ k = k0 := fun h => h0 h.symm
      by_cases hk : k ∈ rest.map Prod.fst
      · simp [Registry.set, Registry.keys, h0, h1, hk, ih]
      · simp [Registry.set, Registry.keys, h0, h1, hk, ih]

theorem Registry.keys_set_nodup (channels : Registry) (k : String) (c : ChannelInfo)
    (h : channels.keys.Nodup) : (channels.set k c).keys.Nodup := by
  rw [Registry.keys_set]
  by_cases hk : k ∈ channels.keys
  · simpa [hk] using h
  · simp only [hk, if_false]
    exact List.Nodup.append h (List.nodup_singleton _) (by simpa using hk)

theorem Registry.keys_modify_nodup (channels : Registry) (k : String)
    (f : ChannelInfo → ChannelInfo) (h : channels.keys.Nodup) :
    (channels.modify k f).keys.Nodup := by
  unfold Registry.modify
  cases channels.get? k with
  | none => exact h
  | some c => exact Registry.keys_set_nodup channels k _ h

theorem run_keys_nodup (filePath : String) (ops : List Op) :
    ∀ channels : Registry, channels.keys.Nodup → (run filePath channels ops).keys.Nodup := by
  induction ops with
  | nil => intro channels h; exact h
  | cons op rest ih =>
    intro channels h
    have hstep : (op.apply filePath channels).keys.Nodup := by
      cases op <;> simp only [Op.apply]
      · exact Registry.keys_set_nodup _ _ _ h
      all_goals exact Registry.keys_modify_nodup _ _ _ h
    exact ih _ hstep

theorem analyzeFile_keys_nodup (filePath : String) (parsed : Option Node) (channels : Registry)
    (h : channels.keys.Nodup) : (analyzeFile filePath parsed channels).keys.Nodup := by
  cases parsed with
  | none => exact h
  | some tree => rw [analyzeFile_some]; exact run_keys_nodup filePath _ channels h

/-! ## Locations are not empty -/

theorem location_ne_empty (filePath : String) (line : Nat) : location filePath line ≠ "" := by
  intro h
  have := congrArg String.length h
  simp [location, String.length_append] at this
  have h1 : (":" : String).length = 1 := by decide
  omega

theorem selectLocation_ne_empty (filePath : String) (line : Nat) :
    selectLocation filePath line ≠ "" := by
  intro h
  have := congrArg String.length h
  simp [selectLocation, String.length_append] at this
  have h1 : (":" : String).length = 1 := by decide
  omega

theorem sendLoc_ne_empty (filePath n loc : String) (op : Op) (hop : op.WellFormed filePath)
    (h : op.sendLoc n = some loc) : loc ≠ "" := by
  cases op with
  | send name l =>
    by_cases hn : name = n
    · simp [Op.sendLoc, hn] at h
      subst h
      obtain ⟨line, hl | hl⟩ := hop
      · rw [hl]; exact location_ne_empty _ _
      · rw [hl]; exact selectLocation_ne_empty _ _
    · simp [Op.sendLoc, hn] at h
  | _ => simp [Op.sendLoc] at h

theorem receiveLoc_ne_empty (filePath n loc : String) (op : Op) (hop : op.WellFormed filePath)
    (h : op.receiveLoc n = some loc) : loc ≠ "" := by
  cases op with
  | receive name l =>
    by_cases hn : name = n
    · simp [Op.receiveLoc, hn] at h
      subst h
      obtain ⟨line, hl | hl⟩ := hop
      · rw [hl]; exact location_ne_empty _ _
      · rw [hl]; exact selectLocation_ne_empty _ _
    · simp [Op.receiveLoc, hn] at h
  | _ => simp [Op.receiveLoc] at h

theorem nonEmptyEntries_eq_length (ops : List String) (h : ∀ op ∈ ops, op ≠ "") :
    nonEmptyEntries ops = ops.length := by
  unfold nonEmptyEntries
  rw [List.filter_eq_self.mpr]
  intro a ha
  simpa using h a ha

/-! ## Counting the sites recorded for one name -/

theorem asIdent_cases (x : Node) : asIdent x = none ∨ ∃ name, asIdent x = some name := by
  cases asIdent x <;> simp

theorem sendLoc_of_name_ne (n : String) (op : Op) (h : op.name ≠ n) : op.sendLoc n = none := by
  cases op <;> simp_all [Op.sendLoc, Op.name]

theorem receiveLoc_of_name_ne (n : String) (op : Op) (h : op.name ≠ n) :
    op.receiveLoc n = none := by
  cases op <;> simp_all [Op.receiveLoc, Op.name]

theorem funcDecl_no_sites (filePath : String) (line : Nat) (recv : Option (List Node))
    (name : String) (typeParams params results : Option (List Node)) (body : Option Node)
    (n : String) :
    ∀ op ∈ script filePath (.funcDecl line recv name typeParams params results body),
      op.sendLoc n = none ∧ op.receiveLoc n = none := by
  intro op hop
  simp only [script, List.mem_append, List.mem_flatMap] at hop
  rcases hop with ⟨result, _, hmem⟩ | ⟨param, _, hmem⟩
  · unfold resultOps at hmem
    cases h : chanFieldNames result with
    | nil => simp [h] at hmem
    | cons nm rest =>
      simp [h] at hmem
      subst hmem
      exact ⟨rfl, rfl⟩
  · unfold paramOps at hmem
    obtain ⟨nm, _, rfl⟩ := List.mem_map.mp hmem
    exact ⟨rfl, rfl⟩

theorem select_no_sites (filePath : String) (clauses : List Node) (n : String)
    (h : n ∉ selectNames (.selectStmt clauses)) :
    ∀ op ∈ script filePath (.selectStmt clauses),
      op.sendLoc n = none ∧ op.receiveLoc n = none := by
  intro op hop
  have hname := (script_usage filePath (.selectStmt clauses) rfl op hop).2
  have hne : op.name ≠ n := by
    intro heq
    apply h
    rw [← heq]
    exact hname
  exact ⟨sendLoc_of_name_ne n op hne, receiveLoc_of_name_ne n op hne⟩

theorem assign_no_sites (filePath : String) (line : Nat) (lhs : List Node) (rhs0 : Node)
    (rhs : List Node) (n : String) :
    ∀ op ∈ script filePath (.assignStmt line lhs rhs0 rhs),
      op.sendLoc n = none ∧ op.receiveLoc n = none := by
  intro op hop
  obtain ⟨name, value, rfl⟩ := declareOps_fresh filePath line lhs _ 0 op hop
  exact ⟨rfl, rfl⟩

/-- Outside the cases of a select statement, a visit records one send site for
`n` at a send statement on `n` and none at any other node. -/
theorem script_sendLocs_length (filePath n : String) (node : Node)
    (h : n ∉ selectNames node) :
    ((script filePath node).filterMap (Op.sendLoc n)).length
      = if isSendOn n node = true then 1 else 0 := by
  cases node with
  | assignStmt line lhs rhs0 rhs =>
    have : (script filePath (.assignStmt line lhs rhs0 rhs)).filterMap (Op.sendLoc n) = [] :=
      List.filterMap_eq_nil_iff.mpr
        (fun op hop => (assign_no_sites filePath line lhs rhs0 rhs n op hop).1)
    simp [this, isSendOn]
  | sendStmt line chan value =>
    simp only [script, isSendOn]
    rcases asIdent_cases chan with hc | ⟨k, hc⟩
    · simp [hc]
    · by_cases hk : k = n
      · simp [hc, Op.sendLoc, hk]
      · simp [hc, Op.sendLoc, hk]
  | unaryExpr line tok x =>
    simp only [script, isSendOn]
    by_cases ht : tok = Token.ARROW
    · cases hx : asIdent x <;> simp [ht, Op.sendLoc]
    · simp [ht]
  | selectStmt clauses =>
    have : (script filePath (.selectStmt clauses)).filterMap (Op.sendLoc n) = [] :=
      List.filterMap_eq_nil_iff.mpr (fun op hop => (select_no_sites filePath clauses n h op hop).1)
    simp [this, isSendOn]
  | funcDecl line recv name typeParams params results body =>
    have : (script filePath (.funcDecl line recv name typeParams params results body)).filterMap
        (Op.sendLoc n) = [] :=
      List.filterMap_eq_nil_iff.mpr
        (fun op hop => (funcDecl_no_sites filePath line recv name typeParams params results body
          n op hop).1)
    simp [this, isSendOn]
  | _ => simp [script, isSendOn]

/-- Outside the cases of a select statement, a visit records one receive site
for `n` at a receive expression on `n` and none at any other node. -/
theorem script_receiveLocs_length (filePath n : String) (node : Node)
    (h : n ∉ selectNames node) :
    ((script filePath node).filterMap (Op.receiveLoc n)).length
      = if isReceiveOn n node = true then 1 else 0 := by
  cases node with
  | assignStmt line lhs rhs0 rhs =>
    have : (script filePath (.assignStmt line lhs rhs0 rhs)).filterMap (Op.receiveLoc n) = [] :=
      List.filterMap_eq_nil_iff.mpr
        (fun op hop => (assign_no_sites filePath line lhs rhs0 rhs n op hop).2)
    simp [this, isReceiveOn]
  | sendStmt line chan value =>
    simp only [script, isReceiveOn]
    cases hc : asIdent chan <;> simp [Op.receiveLoc]
  | unaryExpr line tok x =>
    simp only [script, isReceiveOn]
    by_cases ht : tok = Token.ARROW
    · rcases asIdent_cases x with hx | ⟨k, hx⟩
      · simp [ht, hx]
      · by_cases hk : k = n
        · simp [ht, hx, Op.receiveLoc, hk]
        · simp [ht, hx, Op.receiveLoc, hk]
    · simp [ht]
  | selectStmt clauses =>
    have : (script filePath (.selectStmt clauses)).filterMap (Op.receiveLoc n) = [] :=
      List.filterMap_eq_nil_iff.mpr (fun op hop => (select_no_sites filePath clauses n h op hop).2)
    simp [this, isReceiveOn]
  | funcDecl line recv name typeParams params results body =>
    have : (script filePath (.funcDecl line recv name typeParams params results body)).filterMap
        (Op.receiveLoc n) = [] :=
      List.filterMap_eq_nil_iff.mpr
        (fun op hop => (funcDecl_no_sites filePath line recv name typeParams params results body
          n op hop).2)
    simp [this, isReceiveOn]
  | _ => simp [script, isReceiveOn]

theorem flatMap_sendLocs_length (filePath n : String) (nodes : List Node)
    (h : ∀ node ∈ nodes, n ∉ selectNames node) :
    ((nodes.flatMap (script filePath)).filterMap (Op.sendLoc n)).length
      = nodes.countP (isSendOn n) := by
  induction nodes with
  | nil => rfl
  | cons node rest ih =>
    simp only [List.flatMap_cons, List.filterMap_append, List.length_append, List.countP_cons,
      ih (fun x hx => h x (List.mem_cons_of_mem _ hx)),
      script_sendLocs_length filePath n node (h node (List.mem_cons_self _ _))]
    omega

theorem flatMap_receiveLocs_length (filePath n : String) (nodes : List Node)
    (h : ∀ node ∈ nodes, n ∉ selectNames node) :
    ((nodes.flatMap (script filePath)).filterMap (Op.receiveLoc n)).length
      = nodes.countP (isReceiveOn n) := by
  induction nodes with
  | nil => rfl
  | cons node rest ih =>
    simp only [List.flatMap_cons, List.filterMap_append, List.length_append, List.countP_cons,
      ih (fun x hx => h x (List.mem_cons_of_mem _ hx)),
      script_receiveLocs_length filePath n node (h node (List.mem_cons_self _ _))]
    omega

theorem foldl_onKey_declare (filePath n : String) (pre post : List Op) (c : ChannelInfo)
    (o : Option ChannelInfo) :
    (pre ++ Op.declare n c :: post).foldl (Op.onKey filePath n) o
      = post.foldl (Op.onKey filePath n) (some c) := by
  simp [List.foldl_append, Op.onKey]

/-! ## Scenario 1 -/

/-- C6 (as stated, refuted): `redeclaredScenarioFile` declares
`ch := make(chan int)` and then contains two send statements and one receive
expression on `ch`, none inside a select, yet after its analysis from the empty
registry the record for `ch` has no send site and no receive site and its node
has status `dangling`, because the last statement declares `ch` again; and the
type text stored for `ch`, also after the analysis of `scenarioFile`, is
`chan int`, not `int`. -/
theorem later_declaration_resets_scenario :
    declarationLines "ch" redeclaredScenarioFile = [4, 8]
      ∧ countSends "ch" redeclaredScenarioFile = 2
      ∧ countReceives "ch" redeclaredScenarioFile = 1
      ∧ (∀ node ∈ redeclaredScenarioFile.preorder, selectNames node = [])
      ∧ ((analyzeFile "main.go" (some redeclaredScenarioFile) []).get? "ch").map
          (fun c => (c.Type_, c.SendOps, c.ReceiveOps)) = some ("chan int", [], [])
      ∧ (generateWebGraph (analyzeFile "main.go" (some redeclaredScenarioFile) [])).Nodes.map
          (fun node => (node.ID, node.Status)) = [("main", "normal"), ("ch", "dangling")]
      ∧ ((analyzeFile "main.go" (some scenarioFile) []).get? "ch").map (fun c => c.Type_)
          = some "chan int"
      ∧ "chan int" ≠ "int" := by
  refine ⟨by decide, by decide, by decide, by decide, by decide, by decide, by decide,
    by decide⟩

/-- C6 (amended): starting from the empty registry, analysing a file whose traversal
meets the declaration `ch := make(chan int, ...)` and after it no further
declaration of `ch`, no select case on `ch`, exactly two send statements on `ch`
and exactly one receive expression on `ch`, yields a registry whose record for
`ch` has the type text `chan int` (element type `int`), exactly 2 entries in
`SendOps` and exactly 1 in `ReceiveOps`; `generateWebGraph` emits a node for
`ch`, and every node it emits for `ch` has status `normal`. -/
theorem scenario_two_sends_one_receive (filePath : String) (tree : Node)
    (pre post : List Node) (line : Nat) (args : List Node)
    (hsplit : tree.preorder = pre ++ Node.assignStmt line [.ident "ch"]
      (.callExpr (.ident "make") (.chanType (.ident "int") :: args)) [] :: post)
    (hdecl : "ch" ∉ post.flatMap Node.declares)
    (hselect : ∀ node ∈ post, "ch" ∉ selectNames node)
    (hsends : post.countP (isSendOn "ch") = 2)
    (hreceives : post.countP (isReceiveOn "ch") = 1) :
    ∃ c, (analyzeFile filePath (some tree) []).get? "ch" = some c ∧
      c.Type_ = "chan " ++ getTypeString (.ident "int") ∧ getTypeString (.ident "int") = "int" ∧
      c.SendOps.length = 2 ∧ c.ReceiveOps.length = 1 ∧
      (∃ node ∈ (generateWebGraph (analyzeFile filePath (some tree) [])).Nodes, node.ID = "ch") ∧
      (∀ node ∈ (generateWebGraph (analyzeFile filePath (some tree) [])).Nodes,
        node.ID = "ch" → node.Status = "normal") := by
  have hscript : fileScript filePath tree
      = pre.flatMap (script filePath)
        ++ Op.declare "ch" (newChannelInfo filePath line "ch" (.ident "int"))
          :: post.flatMap (script filePath) := by
    simp [fileScript, hsplit, List.flatMap_append, List.flatMap_cons, script, declareOps,
      declareOpAt, makeChanValue, asIdent]
  have hno : ∀ op ∈ post.flatMap (script filePath), op.isDeclare = true → op.name ≠ "ch" := by
    intro op hop hd hname
    have := flatMap_script_declares filePath post op hop hd
    rw [hname] at this
    exact hdecl this
  have hwf : ∀ op ∈ post.flatMap (script filePath), op.WellFormed filePath := by
    intro op hop
    obtain ⟨node, _, hmem⟩ := List.mem_flatMap.mp hop
    exact script_wellFormed filePath node op hmem
  obtain ⟨c, hc, _, hty, _, _, hs, hr, _, _⟩ := foldl_onKey_usage filePath "ch"
    (post.flatMap (script filePath)) hno (newChannelInfo filePath line "ch" (.ident "int"))
  have hget : (analyzeFile filePath (some tree) []).get? "ch" = some c := by
    rw [analyzeFile_some, get?_run, hscript, foldl_onKey_declare]
    exact hc
  have hslen : c.SendOps.length = 2 := by
    rw [hs]
    simp [newChannelInfo, flatMap_sendLocs_length filePath "ch" post hselect, hsends]
  have hrlen : c.ReceiveOps.length = 1 := by
    rw [hr]
    simp [newChannelInfo, flatMap_receiveLocs_length filePath "ch" post hselect, hreceives]
  have hsne : ∀ loc ∈ c.SendOps, loc ≠ "" := by
    intro loc hloc
    rw [hs] at hloc
    simp only [newChannelInfo, List.nil_append, List.mem_filterMap] at hloc
    obtain ⟨op, hop, hl⟩ := hloc
    exact sendLoc_ne_empty filePath "ch" loc op (hwf op hop) hl
  have hrne : ∀ loc ∈ c.ReceiveOps, loc ≠ "" := by
    intro loc hloc
    rw [hr] at hloc
    simp only [newChannelInfo, List.nil_append, List.mem_filterMap] at hloc
    obtain ⟨op, hop, hl⟩ := hloc
    exact receiveLoc_ne_empty filePath "ch" loc op (hwf op hop) hl
  have hstatus : (channelNode "ch" c).Status = "normal" := by
    rw [channelNode_status, nonEmptyEntries_eq_length _ hsne, nonEmptyEntries_eq_length _ hrne,
      hslen, hrlen]
    simp
  have hkeys : (analyzeFile filePath (some tree) []).keys.Nodup :=
    analyzeFile_keys_nodup filePath (some tree) [] (by simp [Registry.keys])
  refine ⟨c, hget, ?_, rfl, hslen, hrlen, ?_, ?_⟩
  · rw [hty]; rfl
  · refine ⟨channelNode "ch" c, ?_, rfl⟩
    rw [generateWebGraph_nodes]
    exact List.mem_cons_of_mem _
      (List.mem_map.mpr ⟨("ch", c), Registry.mem_of_get? _ _ _ hget, rfl⟩)
  · intro node hnode hid
    rw [generateWebGraph_nodes] at hnode
    rcases List.mem_cons.mp hnode with hmain | hmem
    · rw [hmain] at hid
      exact absurd hid (by decide)
    · obtain ⟨⟨k, c0⟩, hentry, rfl⟩ := List.mem_map.mp hmem
      have hk : k = "ch" := hid
      subst hk
      have := Registry.get?_of_mem _ hkeys _ _ hentry
      rw [hget] at this
      have hc0 : c = c0 := Option.some.inj this
      rw [← hc0]
      exact hstatus

/-- Witness of C6 on `scenarioFile`: the declaration is the eighth node of the
traversal. -/
theorem scenario_two_sends_one_receive_witness :
    scenarioFile.preorder = scenarioFile.preorder.take 7 ++ Node.assignStmt 4 [.ident "ch"]
        (.callExpr (.ident "make") (.chanType (.ident "int") :: [])) []
        :: scenarioFile.preorder.drop 8
      ∧ (scenarioFile.preorder.drop 8).countP (isSendOn "ch") = 2
      ∧ (scenarioFile.preorder.drop 8).countP (isReceiveOn "ch") = 1
      ∧ ∃ c, (analyzeFile "main.go" (some scenarioFile) []).get? "ch" = some c ∧
          c.Type_ = "chan " ++ getTypeString (.ident "int") ∧
          getTypeString (.ident "int") = "int" ∧
          c.SendOps.length = 2 ∧ c.ReceiveOps.length = 1 ∧
          (∃ node ∈ (generateWebGraph (analyzeFile "main.go" (some scenarioFile) [])).Nodes,
            node.ID = "ch") ∧
          (∀ node ∈ (generateWebGraph (analyzeFile "main.go" (some scenarioFile) [])).Nodes,
            node.ID = "ch" → node.Status = "normal") :=
  ⟨rfl, by decide, by decide,
    scenario_two_sends_one_receive "main.go" scenarioFile (scenarioFile.preorder.take 7)
      (scenarioFile.preorder.drop 8) 4 [] rfl (by decide) (by decide) (by decide) (by decide)⟩

/-! ## Several files, in any order -/

theorem onKey_of_name_ne (filePath n : String) (o : Option ChannelInfo) (op : Op)
    (h : op.name ≠ n) : op.onKey filePath n o = o := by
  cases op <;> simp_all [Op.onKey, Op.name]

theorem foldl_onKey_of_names_ne (filePath n : String) (ops : List Op)
    (h : ∀ op ∈ ops, op.name ≠ n) (o : Option ChannelInfo) :
    ops.foldl (Op.onKey filePath n) o = o := by
  induction ops with
  | nil => rfl
  | cons op rest ih =>
    rw [List.foldl_cons, onKey_of_name_ne filePath n o op (h op (List.mem_cons_self _ _))]
    exact ih (fun x hx => h x (List.mem_cons_of_mem _ hx))

theorem get?_analyzeFile (filePath : String) (parsed : Option Node) (channels : Registry)
    (n : String) :
    (analyzeFile filePath parsed channels).get? n
      = (fileWrites (filePath, parsed)).foldl (Op.onKey filePath n) (channels.get? n) := by
  cases parsed with
  | none => rfl
  | some tree => rw [analyzeFile_some, get?_run]; rfl

theorem get?_analyzeFiles (n : String) (files : List (String × Option Node)) :
    ∀ channels : Registry, (analyzeFiles files channels).get? n
      = files.foldl (fun o file => (fileWrites file).foldl (Op.onKey file.1 n) o)
          (channels.get? n) := by
  induction files with
  | nil => intro channels; rfl
  | cons file rest ih =>
    intro channels
    simp only [analyzeFiles, List.foldl_cons] at ih ⊢
    rw [ih, get?_analyzeFile]

theorem foldl_files_none (n : String) (files : List (String × Option Node))
    (h : ∀ f ∈ files, ¬ WritesTo n f) (o : Option ChannelInfo) :
    files.foldl (fun o file => (fileWrites file).foldl (Op.onKey file.1 n) o) o = o := by
  induction files with
  | nil => rfl
  | cons f rest ih =>
    have hf : (fileWrites f).foldl (Op.onKey f.1 n) o = o :=
      foldl_onKey_of_names_ne f.1 n _
        (fun op hop hname => h f (List.mem_cons_self _ _) ⟨op, hop, hname⟩) o
    rw [List.foldl_cons, hf]
    exact ih (fun x hx => h x (List.mem_cons_of_mem _ hx))

theorem foldl_files_single (n : String) (F : String × Option Node)
    (files : List (String × Option Node)) (hmem : F ∈ files) (hnd : files.Nodup)
    (h : ∀ f ∈ files, WritesTo n f → f = F) :
    ∀ o : Option ChannelInfo,
      files.foldl (fun o file => (fileWrites file).foldl (Op.onKey file.1 n) o) o
        = (fileWrites F).foldl (Op.onKey F.1 n) o := by
  induction files with
  | nil => simp at hmem
  | cons f rest ih =>
    intro o
    have hnd2 := List.nodup_cons.mp hnd
    by_cases hf : f = F
    · subst hf
      rw [List.foldl_cons]
      apply foldl_files_none
      intro g hg hw
      have := h g (List.mem_cons_of_mem _ hg) hw
      exact hnd2.1 (this ▸ hg)
    · have hno : ¬ WritesTo n f := fun hw => hf (h f (List.mem_cons_self _ _) hw)
      have hstep : (fileWrites f).foldl (Op.onKey f.1 n) o = o :=
        foldl_onKey_of_names_ne f.1 n _ (fun op hop hname => hno ⟨op, hop, hname⟩) o
      rw [List.foldl_cons, hstep]
      have hmem2 : F ∈ rest := by
        rcases List.mem_cons.mp hmem with h1 | h1
        · exact absurd h1.symm hf
        · exact h1
      exact ih hmem2 hnd2.2 (fun g hg => h g (List.mem_cons_of_mem _ hg)) o

/-- C11 (as stated, refuted): with `a.go` sending on `ch` and `b.go` declaring
`ch`, analysing the two files in queue order leaves `ch` without a send site,
while analysing the same two files in the other order records the send
`a.go:4`; the two `SendOps` differ even as sorted lists, so the result depends
on the order in which the files are processed. -/
theorem processing_order_changes_registry :
    List.Perm [declarerFile, senderFile] [senderFile, declarerFile]
      ∧ ((analyzeFiles [senderFile, declarerFile] []).get? "ch").map (fun c => c.SendOps)
          = some []
      ∧ ((analyzeFiles [declarerFile, senderFile] []).get? "ch").map (fun c => c.SendOps)
          = some ["a.go:4"]
      ∧ ¬ List.Perm ([] : List String) ["a.go:4"] := by
  refine ⟨List.Perm.swap _ _ _, by decide, by decide, by decide⟩

/-- C11 (amended): for every set of source files with distinct paths and every
starting registry, analysing the files one after the other in any two orders
binds every name that at most one of the files writes to (declares or uses) to
the same record: for such a name no recorded usage is lost and the order in
which the files are processed does not matter.  Nothing is stated about workers
that run at the same time. -/
theorem single_writer_names_agree (files files' : List (String × Option Node))
    (channels : Registry) (n : String)
    (hpaths : (files.map Prod.fst).Nodup)
    (hperm : files'.Perm files)
    (hone : ∀ f ∈ files, ∀ g ∈ files, WritesTo n f → WritesTo n g → f = g) :
    (analyzeFiles files' channels).get? n = (analyzeFiles files channels).get? n := by
  have hnd : files.Nodup := List.Nodup.of_map _ hpaths
  have hnd' : files'.Nodup := hperm.nodup_iff.mpr hnd
  rw [get?_analyzeFiles, get?_analyzeFiles]
  by_cases hex : ∃ F ∈ files, WritesTo n F
  · obtain ⟨F, hF, hwF⟩ := hex
    rw [foldl_files_single n F files hF hnd (fun f hf hw => hone f hf F hF hw hwF),
      foldl_files_single n F files' (hperm.mem_iff.mpr hF) hnd'
        (fun f hf hw => hone f (hperm.mem_iff.mp hf) F hF hw hwF)]
  · have hnone : ∀ f ∈ files, ¬ WritesTo n f := fun f hf hw => hex ⟨f, hf, hw⟩
    rw [foldl_files_none n files hnone,
      foldl_files_none n files' (fun f hf => hnone f (hperm.mem_iff.mp hf))]

/-- Witness of C11 on the files `b.go` and `c.go`, taken in both orders, and
the name `done`, which only `c.go` writes to. -/
theorem single_writer_names_agree_witness :
    (([declarerFile, doneFile].map Prod.fst).Nodup)
      ∧ List.Perm [doneFile, declarerFile] [declarerFile, doneFile]
      ∧ (analyzeFiles [doneFile, declarerFile] []).get? "done"
          = (analyzeFiles [declarerFile, doneFile] []).get? "done"
      ∧ ((analyzeFiles [declarerFile, doneFile] []).get? "done").map (fun c => c.SendOps)
          = some ["c.go:5"] := by
  have hno : ¬ WritesTo "done" declarerFile := by
    unfold WritesTo
    decide
  refine ⟨by decide, List.Perm.swap _ _ _, ?_, by decide⟩
  apply single_writer_names_agree [declarerFile, doneFile] [doneFile, declarerFile] [] "done"
    (by decide) (List.Perm.swap _ _ _)
  intro f hf g hg hwf hwg
  simp only [List.mem_cons, List.mem_singleton, List.not_mem_nil, or_false] at hf hg
  rcases hf with rfl | rfl
  · exact absurd hwf hno
  · rcases hg with rfl | rfl
    · exact absurd hwg hno
    · rfl

/-! ## Classification and traversal order -/

theorem generateWebGraph_node_at (channels : List (String × ChannelInfo)) (i : Nat)
    (name : String) (c : ChannelInfo) (h : channels[i]? = some (name, c)) :
    (generateWebGraph channels).Nodes[i + 1]? = some (channelNode name c) := by
  simp [generateWebGraph_nodes, h]

theorem channelNode_status_congr (name name' : String) (c c' : ChannelInfo)
    (hs : c'.SendOps = c.SendOps) (hr : c'.ReceiveOps = c.ReceiveOps) :
    (channelNode name' c').Status = (channelNode name c).Status := by
  rw [channelNode_status, channelNode_status, hs, hr]

/-- C12: classification is independent of traversal order.  For every map
(a list of entries with distinct keys) and every second order of its entries,
the node `generateWebGraph` emits at the position of an entry `(name, c)` in
the first order and the node it emits at the position of an entry for `name` in
the second order both carry `ID = name` and have the same `Status`; and that
`Status` is decided by `SendOps` and `ReceiveOps` of the record alone: in any
map whatever, an entry whose record has the same two lists gets a node with
the same `Status`. -/
theorem status_independent_of_order (channels channels' : List (String × ChannelInfo))
    (hkeys : (channels.map Prod.fst).Nodup) (hperm : channels'.Perm channels)
    (i j : Nat) (name : String) (c c2 : ChannelInfo)
    (h : channels[i]? = some (name, c)) (h' : channels'[j]? = some (name, c2)) :
    ∃ node node', (generateWebGraph channels).Nodes[i + 1]? = some node ∧
      (generateWebGraph channels').Nodes[j + 1]? = some node' ∧
      node.ID = name ∧ node'.ID = name ∧ node'.Status = node.Status ∧
      ∀ (others : List (String × ChannelInfo)) (k : Nat) (name3 : String) (c3 : ChannelInfo),
        others[k]? = some (name3, c3) → c3.SendOps = c.SendOps →
        c3.ReceiveOps = c.ReceiveOps →
        ∃ node3, (generateWebGraph others).Nodes[k + 1]? = some node3 ∧
          node3.Status = node.Status := by
  have hmem : (name, c) ∈ channels := List.getElem?_mem h
  have hmem2 : (name, c2) ∈ channels := hperm.subset (List.getElem?_mem h')
  have h1 := Registry.get?_of_mem channels hkeys name c hmem
  have h2 := Registry.get?_of_mem channels hkeys name c2 hmem2
  have hc : c2 = c := Option.some.inj (h2.symm.trans h1)
  subst hc
  refine ⟨channelNode name c2, channelNode name c2, generateWebGraph_node_at _ _ _ _ h,
    generateWebGraph_node_at _ _ _ _ h', rfl, rfl, rfl, ?_⟩
  intro others k name3 c3 hk hs hr
  exact ⟨channelNode name3 c3, generateWebGraph_node_at _ _ _ _ hk,
    channelNode_status_congr name name3 c2 c3 hs hr⟩

/-- Witness of C12 on a map with the entries `a` and `b`, iterated in the two
possible orders. -/
theorem status_independent_of_order_witness :
    (([("a", declaredRecord "a"), ("b", addSendOp "main.go" "main.go:7" (declaredRecord "b"))]
        : List (String × ChannelInfo)).map Prod.fst).Nodup
      ∧ List.Perm [("b", addSendOp "main.go" "main.go:7" (declaredRecord "b")),
          ("a", declaredRecord "a")]
          [("a", declaredRecord "a"), ("b", addSendOp "main.go" "main.go:7" (declaredRecord "b"))]
      ∧ ∃ node node',
          (generateWebGraph [("a", declaredRecord "a"),
            ("b", addSendOp "main.go" "main.go:7" (declaredRecord "b"))]).Nodes[1 + 1]?
            = some node ∧
          (generateWebGraph [("b", addSendOp "main.go" "main.go:7" (declaredRecord "b")),
            ("a", declaredRecord "a")]).Nodes[0 + 1]? = some node' ∧
          node.ID = "b" ∧ node'.ID = "b" ∧ node'.Status = node.Status := by
  refine ⟨by decide, List.Perm.swap _ _ _, ?_⟩
  obtain ⟨node, node', h1, h2, h3, h4, h5, _⟩ := status_independent_of_order
    [("a", declaredRecord "a"), ("b", addSendOp "main.go" "main.go:7" (declaredRecord "b"))]
    [("b", addSendOp "main.go" "main.go:7" (declaredRecord "b")), ("a", declaredRecord "a")]
    (by decide) (List.Perm.swap _ _ _) 1 0 "b"
    (addSendOp "main.go" "main.go:7" (declaredRecord "b"))
    (addSendOp "main.go" "main.go:7" (declaredRecord "b")) rfl rfl
  exact ⟨node, node', h1, h2, h3, h4, h5⟩

/-! ## Name collisions -/

theorem declarationLine_eq_some (n : String) (node : Node) (line : Nat)
    (h : declarationLine n node = some line) :
    ∃ lhs rhs0 rhs, node = .assignStmt line lhs rhs0 rhs ∧
      n ∈ declaredNamesFrom lhs 0 (rhs0 :: rhs) := by
  cases node with
  | assignStmt l lhs rhs0 rhs =>
    simp only [declarationLine] at h
    by_cases hn : n ∈ declaredNamesFrom lhs 0 (rhs0 :: rhs)
    · simp only [hn, if_true, Option.some.injEq] at h
      subst h
      exact ⟨lhs, rhs0, rhs, rfl, hn⟩
    · simp [hn] at h
  | _ => simp [declarationLine] at h

theorem declarationLine_eq_none (n : String) (node : Node)
    (h : declarationLine n node = none) : n ∉ node.declares := by
  cases node with
  | assignStmt l lhs rhs0 rhs =>
    simp only [declarationLine] at h
    by_cases hn : n ∈ declaredNamesFrom lhs 0 (rhs0 :: rhs)
    · simp [hn] at h
    · exact hn
  | _ => simp [Node.declares]

/-- A visit of a declaration of `n` binds `n` to a record located at that line. -/
theorem script_onKey_declared (filePath n : String) (node : Node) (line : Nat)
    (h : declarationLine n node = some line) (o : Option ChannelInfo) :
    ∃ c, (script filePath node).foldl (Op.onKey filePath n) o = some c ∧
      c.Location = location filePath line := by
  obtain ⟨lhs, rhs0, rhs, rfl, hn⟩ := declarationLine_eq_some n node line h
  have hmem : n ∈ (declareOps filePath line lhs 0 (rhs0 :: rhs)).map Op.name := by
    rw [declareOps_names]; exact hn
  obtain ⟨value, hv⟩ := (foldl_onKey_fresh filePath line n _
    (declareOps_fresh filePath line lhs (rhs0 :: rhs) 0) o).1 hmem
  exact ⟨_, hv, rfl⟩

/-- A visit of a node that does not declare `n` keeps the location of `n`. -/
theorem script_onKey_location (filePath n : String) (node : Node)
    (h : declarationLine n node = none) (c : ChannelInfo) :
    ∃ c', (script filePath node).foldl (Op.onKey filePath n) (some c) = some c' ∧
      c'.Location = c.Location := by
  have hno : ∀ op ∈ script filePath node, op.isDeclare = true → op.name ≠ n := by
    intro op hop hd hname
    have := script_declares filePath node op hop hd
    rw [hname] at this
    exact declarationLine_eq_none n node h this
  obtain ⟨c', hc', _, _, hloc, _⟩ := foldl_onKey_usage filePath n _ hno c
  exact ⟨c', hc', hloc⟩

theorem nodes_onKey_location (filePath n : String) (nodes : List Node) :
    ∀ o : Option ChannelInfo,
      (∀ line, (declarationLinesOf n nodes).getLast? = some line →
        ∃ c, (nodes.flatMap (script filePath)).foldl (Op.onKey filePath n) o = some c ∧
          c.Location = location filePath line) ∧
      (declarationLinesOf n nodes = [] → ∀ c, o = some c →
        ∃ c', (nodes.flatMap (script filePath)).foldl (Op.onKey filePath n) o = some c' ∧
          c'.Location = c.Location) := by
  induction nodes with
  | nil =>
    intro o
    refine ⟨fun line h => ?_, fun _ c hc => ⟨c, hc, rfl⟩⟩
    simp [declarationLinesOf] at h
  | cons node rest ih =>
    intro o
    simp only [List.flatMap_cons, List.foldl_append]
    cases hnode : declarationLine n node with
    | none =>
      have hlines : declarationLinesOf n (node :: rest) = declarationLinesOf n rest := by
        simp [declarationLinesOf, List.filterMap_cons, hnode]
      rw [hlines]
      refine ⟨fun line h => ?_, fun hnil c hc => ?_⟩
      · exact (ih _).1 line h
      · subst hc
        obtain ⟨c1, hc1, hloc1⟩ := script_onKey_location filePath n node hnode c
        obtain ⟨c2, hc2, hloc2⟩ := (ih _).2 hnil c1 hc1
        exact ⟨c2, hc2, hloc2.trans hloc1⟩
    | some l =>
      have hlines : declarationLinesOf n (node :: rest) = l :: declarationLinesOf n rest := by
        simp [declarationLinesOf, List.filterMap_cons, hnode]
      rw [hlines]
      refine ⟨fun line h => ?_, fun hnil => by simp at hnil⟩
      cases hrest : declarationLinesOf n rest with
      | nil =>
        rw [hrest] at h
        simp only [List.getLast?_singleton, Option.some.injEq] at h
        subst h
        obtain ⟨c1, hc1, hloc1⟩ := script_onKey_declared filePath n node l hnode o
        obtain ⟨c2, hc2, hloc2⟩ := (ih _).2 hrest c1 hc1
        exact ⟨c2, hc2, hloc2.trans hloc1⟩
      | cons a t =>
        rw [hrest, List.getLast?_cons_cons, ← hrest] at h
        exact (ih _).1 line h

/-- The analysis of a file that declares `n` leaves exactly one record under
`n`, located at the last declaration of `n` in the file. -/
theorem analyzeFile_declared_location (filePath : String) (tree : Node) (channels : Registry)
    (hkeys : channels.keys.Nodup) (n : String) (line : Nat)
    (h : (declarationLines n tree).getLast? = some line) :
    ∃ c, (analyzeFile filePath (some tree) channels).get? n = some c ∧
      c.Location = location filePath line ∧
      ∀ c', (n, c') ∈ analyzeFile filePath (some tree) channels ↔ c' = c := by
  obtain ⟨c, hc, hloc⟩ := (nodes_onKey_location filePath n tree.preorder (channels.get? n)).1
    line h
  have hget : (analyzeFile filePath (some tree) channels).get? n = some c := by
    rw [analyzeFile_some, get?_run]; exact hc
  have hnd := analyzeFile_keys_nodup filePath (some tree) channels hkeys
  refine ⟨c, hget, hloc, fun c' => ⟨fun hmem => ?_, fun heq => ?_⟩⟩
  · have := Registry.get?_of_mem _ hnd n c' hmem
    rw [hget] at this
    exact (Option.some.inj this).symm
  · rw [heq]; exact Registry.mem_of_get? _ n c hget

/-- C13: name collision collapses records.  Starting from any registry (a map:
distinct keys), analysing two files that each declare a channel under the same
identifier `n`, in either order, yields a registry with exactly one record
under key `n`, and its `Location` is the declaration site of `n` (the last one,
if there are several) in the file processed last. -/
theorem name_collision_collapses (channels : Registry) (hkeys : channels.keys.Nodup)
    (pathA pathB : String) (treeA treeB : Node) (n : String) (lineA lineB : Nat)
    (hA : (declarationLines n treeA).getLast? = some lineA)
    (hB : (declarationLines n treeB).getLast? = some lineB) :
    (∃ c, (analyzeFile pathB (some treeB) (analyzeFile pathA (some treeA) channels)).get? n
        = some c ∧
      c.Location = pathB ++ ":" ++ toString lineB ∧
      ∀ c', (n, c') ∈ analyzeFile pathB (some treeB) (analyzeFile pathA (some treeA) channels)
        ↔ c' = c) ∧
    (∃ c, (analyzeFile pathA (some treeA) (analyzeFile pathB (some treeB) channels)).get? n
        = some c ∧
      c.Location = pathA ++ ":" ++ toString lineA ∧
      ∀ c', (n, c') ∈ analyzeFile pathA (some treeA) (analyzeFile pathB (some treeB) channels)
        ↔ c' = c) :=
  ⟨analyzeFile_declared_location pathB treeB _
      (analyzeFile_keys_nodup pathA (some treeA) channels hkeys) n lineB hB,
    analyzeFile_declared_location pathA treeA _
      (analyzeFile_keys_nodup pathB (some treeB) channels hkeys) n lineA hA⟩

/-- Witness of C13 on `main.go`, which declares `ch` on line 4, and `other.go`,
which declares `ch` on line 7, starting from the empty registry. -/
theorem name_collision_collapses_witness :
    (declarationLines "ch" redeclareFile).getLast? = some 4
      ∧ (declarationLines "ch" laterDeclareFile).getLast? = some 7
      ∧ (∃ c, (analyzeFile "other.go" (some laterDeclareFile)
            (analyzeFile "main.go" (some redeclareFile) [])).get? "ch" = some c ∧
          c.Location = "other.go" ++ ":" ++ toString 7 ∧
          ∀ c', ("ch", c') ∈ analyzeFile "other.go" (some laterDeclareFile)
            (analyzeFile "main.go" (some redeclareFile) []) ↔ c' = c)
      ∧ (∃ c, (analyzeFile "main.go" (some redeclareFile)
            (analyzeFile "other.go" (some laterDeclareFile) [])).get? "ch" = some c ∧
          c.Location = "main.go" ++ ":" ++ toString 4 ∧
          ∀ c', ("ch", c') ∈ analyzeFile "main.go" (some redeclareFile)
            (analyzeFile "other.go" (some laterDeclareFile) []) ↔ c' = c) :=
  ⟨by decide, by decide,
    name_collision_collapses [] (by decide) "main.go" "other.go" redeclareFile laterDeclareFile
      "ch" 4 7 (by decide) (by decide)⟩

/-! ## Recorded sites are never empty -/

theorem onKey_sites (filePath n : String) (op : Op) (hop : op.WellFormed filePath)
    (o : Option ChannelInfo)
    (ho : ∀ c, o = some c → (∀ s ∈ c.SendOps, s ≠ "") ∧ (∀ s ∈ c.ReceiveOps, s ≠ "")) :
    ∀ c, op.onKey filePath n o = some c →
      (∀ s ∈ c.SendOps, s ≠ "") ∧ (∀ s ∈ c.ReceiveOps, s ≠ "") := by
  intro c hc
  cases op with
  | declare name c0 =>
    obtain ⟨line, value, rfl⟩ := hop
    by_cases h : name = n
    · simp [Op.onKey, h] at hc
      subst hc
      simp [newChannelInfo]
    · simp [Op.onKey, h] at hc
      exact ho c hc
  | send name loc =>
    by_cases h : name = n
    · simp [Op.onKey, h] at hc
      obtain ⟨c0, hc0, rfl⟩ := hc
      have hloc : loc ≠ "" := sendLoc_ne_empty filePath name loc (.send name loc) hop
        (by simp [Op.sendLoc])
      refine ⟨fun s hs => ?_, (ho c0 hc0).2⟩
      simp only [addSendOp, List.mem_append, List.mem_singleton] at hs
      rcases hs with hs | hs
      · exact (ho c0 hc0).1 s hs
      · rw [hs]; exact hloc
    · simp [Op.onKey, h] at hc
      exact ho c hc
  | receive name loc =>
    by_cases h : name = n
    · simp [Op.onKey, h] at hc
      obtain ⟨c0, hc0, rfl⟩ := hc
      have hloc : loc ≠ "" := receiveLoc_ne_empty filePath name loc (.receive name loc) hop
        (by simp [Op.receiveLoc])
      refine ⟨(ho c0 hc0).1, fun s hs => ?_⟩
      simp only [addReceiveOp, List.mem_append, List.mem_singleton] at hs
      rcases hs with hs | hs
      · exact (ho c0 hc0).2 s hs
      · rw [hs]; exact hloc
    · simp [Op.onKey, h] at hc
      exact ho c hc
  | returned name loc =>
    by_cases h : name = n
    · simp [Op.onKey, h] at hc
      obtain ⟨c0, hc0, rfl⟩ := hc
      exact ho c0 hc0
    · simp [Op.onKey, h] at hc
      exact ho c hc
  | passed name loc =>
    by_cases h : name = n
    · simp [Op.onKey, h] at hc
      obtain ⟨c0, hc0, rfl⟩ := hc
      exact ho c0 hc0
    · simp [Op.onKey, h] at hc
      exact ho c hc

theorem foldl_onKey_sites (filePath n : String) (ops : List Op)
    (hops : ∀ op ∈ ops, op.WellFormed filePath) :
    ∀ o : Option ChannelInfo,
      (∀ c, o = some c → (∀ s ∈ c.SendOps, s ≠ "") ∧ (∀ s ∈ c.ReceiveOps, s ≠ "")) →
      ∀ c, ops.foldl (Op.onKey filePath n) o = some c →
        (∀ s ∈ c.SendOps, s ≠ "") ∧ (∀ s ∈ c.ReceiveOps, s ≠ "") := by
  induction ops with
  | nil => intro o ho c hc; exact ho c hc
  | cons op rest ih =>
    intro o ho c hc
    exact ih (fun x hx => hops x (List.mem_cons_of_mem _ hx)) _
      (onKey_sites filePath n op (hops op (List.mem_cons_self _ _)) o ho) c hc

theorem reachable_sites (channels : Registry) (h : Reachable channels) :
    ∀ n c, channels.get? n = some c →
      (∀ s ∈ c.SendOps, s ≠ "") ∧ (∀ s ∈ c.ReceiveOps, s ≠ "") := by
  induction h with
  | empty => intro n c hc; simp [Registry.get?] at hc
  | step filePath parsed channels _ ih =>
    intro n c hc
    cases parsed with
    | none => exact ih n c hc
    | some tree =>
      rw [analyzeFile_some, get?_run] at hc
      exact foldl_onKey_sites filePath n _ (fileScript_wellFormed filePath tree) _ (ih n) c hc

theorem reachable_keys_nodup (channels : Registry) (h : Reachable channels) :
    channels.keys.Nodup := by
  induction h with
  | empty => simp [Registry.keys]
  | step filePath parsed channels _ ih => exact analyzeFile_keys_nodup filePath parsed channels ih

theorem statusByLength_eq (name : String) (c : ChannelInfo)
    (hs : ∀ s ∈ c.SendOps, s ≠ "") (hr : ∀ s ∈ c.ReceiveOps, s ≠ "") :
    (channelNode name c).Status = statusByLength c := by
  rw [channelNode_status, nonEmptyEntries_eq_length _ hs, nonEmptyEntries_eq_length _ hr]
  rfl

theorem countP_map_const (p : WebEdge → Bool) (e : WebEdge) (l : List String) :
    (l.map (fun _ => e)).countP p = if p e = true then l.length else 0 := by
  induction l with
  | nil => simp
  | cons a t ih =>
    by_cases hp : p e = true
    · simpa [List.countP_cons, hp] using ih
    · simp [List.countP_cons, hp]

theorem foldl_addChannel_sendEdges (n : String) (entries : List (String × ChannelInfo)) :
    ∀ graph : WebGraph,
      (entries.foldl addChannel graph).Edges.countP (fun e => e.To == n && e.Label == "send")
        = graph.Edges.countP (fun e => e.To == n && e.Label == "send")
          + (entries.map (fun entry => if entry.1 = n then entry.2.SendOps.length else 0)).sum := by
  induction entries with
  | nil => intro graph; simp
  | cons entry rest ih =>
    intro graph
    rw [List.foldl_cons, ih]
    simp only [addChannel, List.countP_append, countP_map_const, List.map_cons, List.sum_cons]
    by_cases hk : entry.1 = n
    · simp [hk]; omega
    · simp [hk]

theorem foldl_addChannel_receiveEdges (n : String) (entries : List (String × ChannelInfo)) :
    ∀ graph : WebGraph,
      (entries.foldl addChannel graph).Edges.countP
          (fun e => e.From == n && e.Label == "receive")
        = graph.Edges.countP (fun e => e.From == n && e.Label == "receive")
          + (entries.map
              (fun entry => if entry.1 = n then entry.2.ReceiveOps.length else 0)).sum := by
  induction entries with
  | nil => intro graph; simp
  | cons entry rest ih =>
    intro graph
    rw [List.foldl_cons, ih]
    simp only [addChannel, List.countP_append, countP_map_const, List.map_cons, List.sum_cons]
    by_cases hk : entry.1 = n
    · simp [hk]; omega
    · simp [hk]

theorem sum_at_key (f : ChannelInfo → Nat) (n : String) (c : ChannelInfo)
    (entries : List (String × ChannelInfo)) (hnd : (entries.map Prod.fst).Nodup)
    (hmem : (n, c) ∈ entries) :
    (entries.map (fun entry => if entry.1 = n then f entry.2 else 0)).sum = f c := by
  induction entries with
  | nil => simp at hmem
  | cons entry rest ih =>
    simp only [List.map_cons, List.nodup_cons] at hnd
    simp only [List.map_cons, List.sum_cons]
    rcases List.mem_cons.mp hmem with h | h
    · subst h
      have hzero : (rest.map (fun entry => if entry.1 = n then f entry.2 else 0)).sum = 0 := by
        apply List.sum_eq_zero
        intro x hx
        obtain ⟨e, he, rfl⟩ := List.mem_map.mp hx
        have hne : ¬ e.1 = n := fun heq => hnd.1 (List.mem_map.mpr ⟨e, he, heq⟩)
        simp [hne]
      simp [hzero]
    · have hne : ¬ entry.1 = n := fun heq =>
        hnd.1 (heq ▸ List.mem_map.mpr ⟨(n, c), h, rfl⟩)
      simp [hne, ih hnd.2 h]

/-- C14: in every registry that runs of `analyzeFile` build from the empty
registry, in whatever order `generateWebGraph` iterates its entries, no entry
of a record's `SendOps` or `ReceiveOps` is the empty string; hence the counts of
non-empty entries used for classification equal the list lengths, the node
emitted for the record has the status of the length-based classification, and
the numbers of `send` and `receive` edges emitted for the channel are those
same lengths. -/
theorem reachable_sites_not_empty (channels : Registry) (hreach : Reachable channels)
    (entries : List (String × ChannelInfo)) (hperm : entries.Perm channels)
    (i : Nat) (n : String) (c : ChannelInfo) (h : entries[i]? = some (n, c)) :
    (∀ s ∈ c.SendOps, s ≠ "") ∧ (∀ s ∈ c.ReceiveOps, s ≠ "") ∧
    countOps c.SendOps = c.SendOps.length ∧ countOps c.ReceiveOps = c.ReceiveOps.length ∧
    (∃ node, (generateWebGraph entries).Nodes[i + 1]? = some node ∧ node.ID = n ∧
      node.Status = statusByLength c) ∧
    sendEdgesTo n (generateWebGraph entries) = c.SendOps.length ∧
    receiveEdgesFrom n (generateWebGraph entries) = c.ReceiveOps.length := by
  have hkeys := reachable_keys_nodup channels hreach
  have hmemE : (n, c) ∈ entries := List.getElem?_mem h
  have hget := Registry.get?_of_mem channels hkeys n c (hperm.subset hmemE)
  obtain ⟨hs, hr⟩ := reachable_sites channels hreach n c hget
  have hkeysE : (entries.map Prod.fst).Nodup :=
    (hperm.map Prod.fst).nodup_iff.mpr hkeys
  refine ⟨hs, hr, ?_, ?_, ?_, ?_, ?_⟩
  · rw [countOps_eq_nonEmptyEntries, nonEmptyEntries_eq_length _ hs]
  · rw [countOps_eq_nonEmptyEntries, nonEmptyEntries_eq_length _ hr]
  · exact ⟨channelNode n c, generateWebGraph_node_at entries i n c h, rfl,
      statusByLength_eq n c hs hr⟩
  · simp only [sendEdgesTo, generateWebGraph, foldl_addChannel_sendEdges]
    rw [sum_at_key (fun c => c.SendOps.length) n c entries hkeysE hmemE]
    simp
  · simp only [receiveEdgesFrom, generateWebGraph, foldl_addChannel_receiveEdges]
    rw [sum_at_key (fun c => c.ReceiveOps.length) n c entries hkeysE hmemE]
    simp

/-- Witness of C14 on the registry built by analysing `scenarioFile`, whose
record for `ch` has two send sites and one receive site. -/
theorem reachable_sites_not_empty_witness :
    Reachable (analyzeFile "main.go" (some scenarioFile) [])
      ∧ (analyzeFile "main.go" (some scenarioFile) [])[0]?
          = some ("ch", addReceiveOp "main.go" "main.go:9"
              (addSendOp "main.go" "main.go:7"
                (addSendOp "main.go" "main.go:6" (declaredRecord "ch"))))
      ∧ (∃ node, (generateWebGraph (analyzeFile "main.go" (some scenarioFile) [])).Nodes[0 + 1]?
            = some node ∧ node.ID = "ch" ∧ node.Status = "normal")
      ∧ sendEdgesTo "ch" (generateWebGraph (analyzeFile "main.go" (some scenarioFile) [])) = 2
      ∧ receiveEdgesFrom "ch" (generateWebGraph (analyzeFile "main.go" (some scenarioFile) []))
          = 1 := by
  obtain ⟨_, _, _, _, hnode, hsend, hrecv⟩ := reachable_sites_not_empty
    (analyzeFile "main.go" (some scenarioFile) []) (Reachable.step _ _ _ Reachable.empty)
    (analyzeFile "main.go" (some scenarioFile) []) (List.Perm.refl _) 0 "ch"
    (addReceiveOp "main.go" "main.go:9"
      (addSendOp "main.go" "main.go:7" (addSendOp "main.go" "main.go:6" (declaredRecord "ch"))))
    (by decide)
  exact ⟨Reachable.step _ _ _ Reachable.empty, by decide, hnode, hsend, hrecv⟩

/-! ## Classification of the registries the analysis builds -/

/-- C1: `generateWebGraph` is handed the registry that runs of `analyzeFile`
build from the empty registry (`startWebServer`, line 102).  For every such
registry, in whatever order its entries are iterated, and every entry
`(name, channel)` of it, with `sendCount` the number of entries of `SendOps` and
`receiveCount` the number of entries of `ReceiveOps`, the node emitted for the
entry has `ID = name` and its `Status` is `dangling` when both counts are 0,
`receive-only` when only `sendCount` is 0, `send-only` when only `receiveCount`
is 0, and `normal` when both are positive. -/
theorem generateWebGraph_status_by_length (channels : Registry) (hreach : Reachable channels)
    (entries : List (String × ChannelInfo)) (hperm : entries.Perm channels)
    (i : Nat) (name : String) (channel : ChannelInfo)
    (h : entries[i]? = some (name, channel)) :
    ∃ node, (generateWebGraph entries).Nodes[i + 1]? = some node ∧ node.ID = name ∧
      (channel.SendOps.length = 0 → channel.ReceiveOps.length = 0 →
        node.Status = "dangling") ∧
      (channel.SendOps.length = 0 → 0 < channel.ReceiveOps.length →
        node.Status = "receive-only") ∧
      (0 < channel.SendOps.length → channel.ReceiveOps.length = 0 →
        node.Status = "send-only") ∧
      (0 < channel.SendOps.length → 0 < channel.ReceiveOps.length →
        node.Status = "normal") := by
  have hkeys := reachable_keys_nodup channels hreach
  have hget := Registry.get?_of_mem channels hkeys name channel
    (hperm.subset (List.getElem?_mem h))
  obtain ⟨hs, hr⟩ := reachable_sites channels hreach name channel hget
  have hstatus := statusByLength_eq name channel hs hr
  refine ⟨channelNode name channel, generateWebGraph_node_at entries i name channel h, rfl,
    ?_, ?_, ?_, ?_⟩
  · intro h1 h2; rw [hstatus]; simp [statusByLength, h1, h2]
  · intro h1 h2; rw [hstatus]; simp [statusByLength, h1, Nat.pos_iff_ne_zero.mp h2]
  · intro h1 h2; rw [hstatus]; simp [statusByLength, h2, Nat.pos_iff_ne_zero.mp h1]
  · intro h1 h2
    rw [hstatus]
    simp [statusByLength, Nat.pos_iff_ne_zero.mp h1, Nat.pos_iff_ne_zero.mp h2]

/-- Witness of C1 on the registry built by analysing `selectSendFile` and then
`scenarioFile` as `other.go`, whose record for `ch` has two send sites and one
receive site. -/
theorem generateWebGraph_status_by_length_witness :
    Reachable (analyzeFile "other.go" (some scenarioFile)
        (analyzeFile "main.go" (some selectSendFile) []))
      ∧ (analyzeFile "other.go" (some scenarioFile)
          (analyzeFile "main.go" (some selectSendFile) []))[0]?
          = some ("ch", addReceiveOp "other.go" "other.go:9"
              (addSendOp "other.go" "other.go:7"
                (addSendOp "other.go" "other.go:6"
                  (newChannelInfo "other.go" 4 "ch" (.ident "int")))))
      ∧ ∃ node, (generateWebGraph (analyzeFile "other.go" (some scenarioFile)
            (analyzeFile "main.go" (some selectSendFile) []))).Nodes[0 + 1]? = some node ∧
          node.ID = "ch" ∧ node.Status = "normal" := by
  refine ⟨Reachable.step _ _ _ (Reachable.step _ _ _ Reachable.empty), by decide, ?_⟩
  obtain ⟨node, h1, h2, _, _, _, h6⟩ := generateWebGraph_status_by_length
    (analyzeFile "other.go" (some scenarioFile) (analyzeFile "main.go" (some selectSendFile) []))
    (Reachable.step _ _ _ (Reachable.step _ _ _ Reachable.empty))
    (analyzeFile "other.go" (some scenarioFile) (analyzeFile "main.go" (some selectSendFile) []))
    (List.Perm.refl _) 0 "ch"
    (addReceiveOp "other.go" "other.go:9"
      (addSendOp "other.go" "other.go:7"
        (addSendOp "other.go" "other.go:6" (newChannelInfo "other.go" 4 "ch" (.ident "int")))))
    (by decide)
  exact ⟨node, h1, h2, h6 (by decide) (by decide)⟩

end Channeling
